import Mathlib

/-!
Verification development for the SmallSat proceedings crawler
(`SmallSat_CustomizedCrawler.py`).  The Python source is shallowly embedded:
HTML documents are abstracted to the fields the code inspects (row classes,
row text, anchor hrefs, title string, abstract container, meta description),
strings are `List Char`, and the external collaborators (HTTP fetch, file
existence, download attempts) are oracles passed in as functions.  Each
definition mirrors one function or inline block of the source.
-/

/-! ## Python string primitives -/

/-- Whitespace as recognized by Python's `str.strip` / regex `\s` (ASCII part). -/
def pyIsSpace (c : Char) : Bool :=
  c = ' ' || c = '\t' || c = '\n' || c = '\r' || c = '\x0B' || c = '\x0C'

/-- Word characters of the regex class `\w` (ASCII part: alphanumeric or underscore). -/
def isWordChar (c : Char) : Bool :=
  c.isAlphanum || c = '_'

/-- Python `str.strip()`: drop leading and trailing whitespace. -/
def pyStrip (s : List Char) : List Char :=
  ((s.dropWhile pyIsSpace).reverse.dropWhile pyIsSpace).reverse

/-- Python `str.split(sep)` for a single-character separator: split at every
occurrence of `sep`, keeping empty fields. -/
def pySplit (sep : Char) : List Char → List (List Char)
  | [] => [[]]
  | c :: rest =>
    if c = sep then [] :: pySplit sep rest
    else
      match pySplit sep rest with
      | [] => [[c]]
      | g :: gs => (c :: g) :: gs

/-- Python `str.split(", ")`: split at every (non-overlapping, leftmost-first)
occurrence of the two-character separator comma-space. -/
def splitCommaSpace : List Char → List (List Char)
  | [] => [[]]
  | ',' :: ' ' :: rest => [] :: splitCommaSpace rest
  | c :: rest =>
    match splitCommaSpace rest with
    | [] => [[c]]
    | g :: gs => (c :: g) :: gs

/-- Python `needle in hay` substring test. -/
def containsSub (needle : List Char) : List Char → Bool
  | [] => needle.isEmpty
  | c :: rest => needle.isPrefixOf (c :: rest) || containsSub needle rest

/-- Python `int(...)` on a nonempty string of decimal digits. -/
def digitsToNat (ds : List Char) : Nat :=
  ds.foldl (fun n c => n * 10 + (c.toNat - 48)) 0

/-- Python format spec `{n:02d}`: decimal, left-padded with `0` to width 2. -/
def pad2 (n : Nat) : String :=
  if n < 10 then "0" ++ toString n else toString n

/-- The date string built at line 59 of the source:
`f"{year}{month_num:02d}{day:02d}"`. -/
def fmtDate (year m d : Nat) : List Char :=
  (toString year ++ pad2 m ++ pad2 d).toList

/-! ## Listing parser (`extract_paper_links_with_dates`, lines 28-80) -/

/-- The table behind `%B`: lowercased full English month names to numbers. -/
def monthLookup (s : String) : Option Nat :=
  if s = "january" then some 1
  else if s = "february" then some 2
  else if s = "march" then some 3
  else if s = "april" then some 4
  else if s = "may" then some 5
  else if s = "june" then some 6
  else if s = "july" then some 7
  else if s = "august" then some 8
  else if s = "september" then some 9
  else if s = "october" then some 10
  else if s = "november" then some 11
  else if s = "december" then some 12
  else none

/-- `datetime.datetime.strptime(month, "%B").month`: the full English month
name (matched case-insensitively, consuming the whole string) mapped to its
number; `none` models the `ValueError` that the source catches. -/
def monthNum (w : List Char) : Option Nat :=
  monthLookup (String.mk (w.map Char.toLower))

/-- One anchored attempt of the regex `(\w+)\s+(\d+)` at the start of `s`.
The greedy runs are deterministic here because `\w`, `\s` and `\d` classes do
not let backtracking produce a different split.  Returns (group 1, int(group 2)). -/
def matchMonthDayAt (s : List Char) : Option (List Char × Nat) :=
  let w := s.takeWhile isWordChar
  if w.isEmpty then none
  else
    let s1 := s.dropWhile isWordChar
    if (s1.takeWhile pyIsSpace).isEmpty then none
    else
      let s2 := s1.dropWhile pyIsSpace
      let ds := s2.takeWhile Char.isDigit
      if ds.isEmpty then none else some (w, digitsToNat ds)

/-- `re.search(r"(\w+)\s+(\d+)", s)`: leftmost match of month-word and day. -/
def searchMonthDay : List Char → Option (List Char × Nat)
  | [] => none
  | c :: rest =>
    match matchMonthDayAt (c :: rest) with
    | some r => some r
    | none => searchMonthDay rest

/-- Lines 51-64 of the source: split the day-row text on `", "`; if exactly two
parts, regex-search the second part for month and day, convert the month name,
and format the current date; any failure yields `none` (the source logs a
warning and keeps the previous current date). -/
def parseDayText (year : Nat) (text : List Char) : Option (List Char) :=
  match splitCommaSpace text with
  | [_, second] =>
    match searchMonthDay second with
    | some (w, day) =>
      match monthNum w with
      | some m => some (fmtDate year m day)
      | none => none
    | none => none
  | _ => none

/-- The literal part of the link pattern `rf"/smallsat/{year}/all{year}/\d+"`. -/
def yearPat (year : Nat) : List Char :=
  ("/smallsat/" ++ toString year ++ "/all" ++ toString year ++ "/").toList

/-- Anchored attempt of the paper-link regex at the start of `s`:
the year literal followed by at least one digit. -/
def matchPaperAt (year : Nat) (s : List Char) : Bool :=
  (yearPat year).isPrefixOf s &&
    (match s.drop (yearPat year).length with
     | c :: _ => c.isDigit
     | [] => false)

/-- `re.search` of the paper-link pattern anywhere in an href. -/
def searchPaperPat (year : Nat) : List Char → Bool
  | [] => false
  | c :: rest => matchPaperAt year (c :: rest) || searchPaperPat year rest

/-- A `<tr>` of the schedule table, abstracted to what the source reads:
its `class` attribute list, its stripped text, and the hrefs of its anchors
in document order. -/
structure Row where
  classes : List String
  text : List Char
  anchors : List (List Char)
  deriving DecidableEq

/-- `any('day' in c for c in row_classes)` (line 46). -/
def isDayRow (row : Row) : Bool :=
  row.classes.any fun c => containsSub "day".toList c.toList

/-- `any('vevent' in c for c in row_classes)` (line 67). -/
def isVeventRow (row : Row) : Bool :=
  row.classes.any fun c => containsSub "vevent".toList c.toList

/-- `row.find('a', href=re.compile(...))` (line 68): first anchor whose href
matches the year-scoped paper pattern. -/
def findLink (year : Nat) (row : Row) : Option (List Char) :=
  row.anchors.find? fun h => searchPaperPat year h

/-- The link a row contributes as an evented row: `none` for day rows (the
`elif` never runs), the first matching anchor for vevent rows, `none` otherwise. -/
def eventLink (year : Nat) (row : Row) : Option (List Char) :=
  if isDayRow row then none
  else if isVeventRow row then findLink year row
  else none

/-- The mutable state of the row walk: `paper_date_map` (a Python dict, kept
as an insertion-ordered association list), `current_date`, `skipped_links`. -/
structure ParseState where
  paperDateMap : List (List Char × List Char)
  current : Option (List Char)
  skippedLinks : List (List Char)
  deriving DecidableEq

/-- Python dict assignment `m[k] = v`: overwrite in place if the key exists
(keeping its position), otherwise append. -/
def dictInsert (m : List (List Char × List Char)) (k v : List Char) :
    List (List Char × List Char) :=
  if m.any fun p => p.1 == k then
    m.map fun p => if p.1 = k then (k, v) else p
  else m ++ [(k, v)]

/-- Lines 42-76: processing of one table row. -/
def stepRow (year : Nat) (st : ParseState) (row : Row) : ParseState :=
  if isDayRow row then
    match parseDayText year row.text with
    | some d => ⟨st.paperDateMap, some d, st.skippedLinks⟩
    | none => st
  else if isVeventRow row then
    match findLink year row with
    | some link =>
      match st.current with
      | some d => ⟨dictInsert st.paperDateMap link d, st.current, st.skippedLinks⟩
      | none => ⟨st.paperDateMap, st.current, st.skippedLinks ++ [link]⟩
    | none => st
  else st

/-- The listing page, abstracted to the first `<table class="vcalendar">`
(its rows in document order), when one exists. -/
structure ListingDoc where
  vcalendar : Option (List Row)
  deriving DecidableEq

/-- `extract_paper_links_with_dates` including its internal state: walk all
rows of the vcalendar table from the empty state; empty result if the table
is absent (lines 30-36). -/
def extractFull (soup : ListingDoc) (year : Nat) : ParseState :=
  match soup.vcalendar with
  | none => ⟨[], none, []⟩
  | some rows => List.foldl (stepRow year) ⟨[], none, []⟩ rows

/-- `extract_paper_links_with_dates(soup, year)` (lines 28-80): the returned
`paper_date_map`. -/
def extract_paper_links_with_dates (soup : ListingDoc) (year : Nat) :
    List (List Char × List Char) :=
  (extractFull soup year).paperDateMap

/-- The effect of one row on `current_date` alone (the day-row branch of
`stepRow`); used to characterize the date context. -/
def dayStep (year : Nat) (cur : Option (List Char)) (row : Row) : Option (List Char) :=
  if isDayRow row then
    match parseDayText year row.text with
    | some d => some d
    | none => cur
  else cur

/-! ## Paper page extraction (`get_article_title`, abstract block, `find_pdf_link`) -/

/-- The `<div id="abstract">` container: its first `<p>`'s stripped text when
one exists, and the container's own stripped text. -/
structure AbsDiv where
  firstP : Option (List Char)
  text : List Char
  deriving DecidableEq

/-- One paper's page, abstracted to what the source reads: `soup.title.string`
(absent if there is no `<title>` or it has no string), the abstract container,
the `<meta name="description">` tag (outer `Option`: tag presence; inner:
presence of its `content` attribute), and all anchor hrefs in document order. -/
structure PaperDoc where
  title : Option (List Char)
  absDiv : Option AbsDiv
  metaDesc : Option (Option (List Char))
  anchors : List (List Char)
  deriving DecidableEq

/-- `get_article_title(soup)` (lines 82-87): split the title string on `':'`;
the second field if there are at least two, else the only field, stripped;
`"UnknownTitle"` when there is no title string. -/
def get_article_title (soup : PaperDoc) : List Char :=
  match soup.title with
  | some s =>
    match pySplit ':' s with
    | _ :: p1 :: _ => pyStrip p1
    | [p0] => pyStrip p0
    | [] => []
  | none => "UnknownTitle".toList

/-- The inline abstract extraction of `main` (lines 171-188): first paragraph
of the abstract container, else the container's text, else the meta
description's content when the tag exists and the content is truthy, else `""`. -/
def extract_abstract (soup : PaperDoc) : List Char :=
  match soup.absDiv with
  | some ad =>
    match ad.firstP with
    | some p => p
    | none => ad.text
  | none =>
    match soup.metaDesc with
    | some (some c) => if c.isEmpty then [] else c
    | _ => []

/-- The literal before `\d+` in the viewcontent PDF pattern (line 91). -/
def pdfPatHead : List Char :=
  "https://digitalcommons.usu.edu/cgi/viewcontent.cgi?article=".toList

/-- The literal after `\d+` in the viewcontent PDF pattern (line 91). -/
def pdfPatTail : List Char :=
  "&context=smallsat".toList

/-- Anchored attempt of the PDF-link regex at the start of `s`. -/
def matchPdfAt (s : List Char) : Bool :=
  pdfPatHead.isPrefixOf s &&
    (let s1 := s.drop pdfPatHead.length
     !(s1.takeWhile Char.isDigit).isEmpty &&
       pdfPatTail.isPrefixOf (s1.dropWhile Char.isDigit))

/-- `re.search` of the PDF pattern anywhere in an href. -/
def searchPdfPat : List Char → Bool
  | [] => false
  | c :: rest => matchPdfAt (c :: rest) || searchPdfPat rest

/-- `find_pdf_link(soup)` (lines 89-96): first anchor whose href matches the
viewcontent pattern, kept only if it is a nonempty string. -/
def find_pdf_link (soup : PaperDoc) : Option (List Char) :=
  match soup.anchors.find? fun h => searchPdfPat h with
  | some url => if url.isEmpty then none else some url
  | none => none

/-! ## Downloader (`download_pdf`, lines 98-113) -/

/-- Observable events of one `download_pdf` call: a numbered fetch-and-write
attempt, or the fixed `time.sleep(0.5)` delay after a failed attempt. -/
inductive DlEvent where
  | attempt : Nat → DlEvent
  | sleep : DlEvent
  deriving DecidableEq

/-- Whether an event is an attempt. -/
def DlEvent.isAttempt : DlEvent → Bool
  | .attempt _ => true
  | .sleep => false

/-- The retry loop of `download_pdf`, instrumented with its event trace.
`ok i` tells whether attempt number `i` succeeds (an exception or bad status
makes it `false`); `remaining` counts the attempts left in
`range(1, max_retries + 1)`.  A success returns `True` immediately; a failure
sleeps and retries; exhaustion returns `False`. -/
def downloadGo (ok : Nat → Bool) (attempt : Nat) : Nat → Bool × List DlEvent
  | 0 => (false, [])
  | remaining + 1 =>
    if ok attempt then (true, [DlEvent.attempt attempt])
    else
      let r := downloadGo ok (attempt + 1) remaining
      (r.1, DlEvent.attempt attempt :: DlEvent.sleep :: r.2)

/-- `download_pdf(url, output_path)` with the default `max_retries=5`:
the returned success flag, as a function of the attempt oracle. -/
def download_pdf (ok : Nat → Bool) : Bool :=
  (downloadGo ok 1 5).1

/-! ## Run driver (`main`, lines 117-221) -/

/-- One row of the Excel store / one element of `papers_info`
(Title, Date, Abstract, Link). -/
structure Record where
  title : List Char
  date : List Char
  abstract : List Char
  link : List Char
  deriving DecidableEq

/-- The run parameters the loop consults: `test_flag` and `download_flag`. -/
structure Config where
  testFlag : Bool
  downloadFlag : Bool
  deriving DecidableEq

/-- The driver's mutable state, instrumented with the traces of its external
effects: pages fetched (by relative link), full-collection Excel writes (each
the snapshot serialized), and attempted PDF downloads (relative link, url). -/
structure RunState where
  papersInfo : List Record
  processed : List (List Char)
  count : Nat
  fetches : List (List Char)
  writes : List (List Record)
  downloads : List (List Char × List Char)
  deriving DecidableEq

/-- Line 165: prepend the site root when the relative link starts with `/`. -/
def fullLink (rel : List Char) : List Char :=
  match rel with
  | '/' :: _ => "https://digitalcommons.usu.edu".toList ++ rel
  | _ => rel

/-- The dict appended to `papers_info` at lines 189-194. -/
def mkRecord (doc : PaperDoc) (paperDate rel : List Char) : Record :=
  ⟨get_article_title doc, paperDate, extract_abstract doc, rel⟩

/-- Record the fetch of a paper page in the trace (line 167). -/
def withFetch (st : RunState) (rel : List Char) : RunState :=
  { st with fetches := st.fetches ++ [rel] }

/-- Lines 189-195: append the new record and mark the link processed. -/
def recordPaper (st : RunState) (doc : PaperDoc) (paperDate rel : List Char) : RunState :=
  { st with
    papersInfo := st.papersInfo ++ [mkRecord doc paperDate rel]
    processed := st.processed ++ [rel] }

/-- `f"{paper_date}_{article_title}.pdf"` (line 204). -/
def pdfFileName (doc : PaperDoc) (paperDate : List Char) : List Char :=
  paperDate ++ '_' :: get_article_title doc ++ ".pdf".toList

/-- Lines 204-218 once a PDF url was found: attempt the download when
`download_flag` is set and the file does not already exist, then increment
`count` and rewrite the whole collection to Excel. -/
def afterPdf (cfg : Config) (pexists : List Char → Bool) (st : RunState)
    (doc : PaperDoc) (paperDate rel url : List Char) : RunState :=
  let st2 :=
    if cfg.downloadFlag && !pexists (pdfFileName doc paperDate) then
      { st with downloads := st.downloads ++ [(rel, url)] }
    else st
  { st2 with count := st2.count + 1, writes := st2.writes ++ [st2.papersInfo] }

/-- The per-link loop of `main` (lines 161-221).  `f` is the page-fetch
oracle (`fetch_soup` of the full link), `pexists` the file-existence oracle.
Already-processed links are skipped; a failed fetch skips the paper; a paper
without a PDF link is recorded but triggers no write; otherwise download,
count and write happen, and `test_flag` breaks after the third counted paper. -/
def runLoop (cfg : Config) (f : List Char → Option PaperDoc) (pexists : List Char → Bool) :
    List (List Char × List Char) → RunState → RunState
  | [], st => st
  | (rel, paperDate) :: rest, st =>
    if rel ∈ st.processed then runLoop cfg f pexists rest st
    else
      match f (fullLink rel) with
      | none => runLoop cfg f pexists rest (withFetch st rel)
      | some doc =>
        match find_pdf_link doc with
        | none => runLoop cfg f pexists rest (recordPaper (withFetch st rel) doc paperDate rel)
        | some url =>
          let st3 := afterPdf cfg pexists (recordPaper (withFetch st rel) doc paperDate rel)
            doc paperDate rel url
          if cfg.testFlag ∧ 3 ≤ st3.count then st3
          else runLoop cfg f pexists rest st3

/-- Lines 142-157: the state at loop entry.  The store rows (if the Excel file
exists and is readable) seed `papers_info`, their `Link` values seed
`processed_links`; `count` starts at zero and the traces are empty. -/
def initState (store : List Record) : RunState :=
  ⟨store, store.map (fun r => r.link), 0, [], [], []⟩

/-- Equality of run states on everything except the fetch trace; used to state
that removing a link whose fetch fails changes nothing else. -/
def agreeExceptFetches (s t : RunState) : Prop :=
  s.papersInfo = t.papersInfo ∧ s.processed = t.processed ∧ s.count = t.count ∧
    s.writes = t.writes ∧ s.downloads = t.downloads

/-- Portion of a title after the first colon, trimmed.  Modelled from the
spec's words for claim C4 ("split on the first colon; the portion after the
colon is the title, trimmed"), to compare against `get_article_title`. -/
def titleSpecModel (s : List Char) : List Char :=
  pyStrip ((s.dropWhile fun c => c ≠ ':').drop 1)

/-! ## Lemmas about the listing parser -/

/-- A row changes `current_date` exactly as `dayStep` describes. -/
theorem stepRow_current (year : Nat) (st : ParseState) (row : Row) :
    (stepRow year st row).current = dayStep year st.current row := by
  unfold stepRow dayStep
  by_cases hd : isDayRow row = true
  · simp only [hd, if_true]
    cases parseDayText year row.text <;> rfl
  · simp only [hd]
    by_cases hv : isVeventRow row = true
    · simp only [hv, if_true, if_false]
      cases findLink year row with
      | none => rfl
      | some link => cases h : st.current <;> rfl
    · simp [hd, hv]

/-- Over a whole walk, `current_date` is the fold of `dayStep`. -/
theorem foldl_current (year : Nat) (rows : List Row) :
    ∀ st : ParseState,
      (List.foldl (stepRow year) st rows).current = List.foldl (dayStep year) st.current rows := by
  induction rows with
  | nil => intro st; rfl
  | cons r rs ih =>
    intro st
    simp only [List.foldl_cons]
    rw [ih (stepRow year st r), stepRow_current]

/-- A row never removes a skipped link. -/
theorem stepRow_skipped_mono (year : Nat) (st : ParseState) (row : Row) (l : List Char)
    (h : l ∈ st.skippedLinks) : l ∈ (stepRow year st row).skippedLinks := by
  unfold stepRow
  by_cases hd : isDayRow row = true
  · simp only [hd, if_true]
    cases parseDayText year row.text <;> simpa
  · simp only [hd]
    by_cases hv : isVeventRow row = true
    · simp only [hv, if_true, if_false]
      cases findLink year row with
      | none => simpa
      | some link =>
        cases st.current <;> simp [h]
    · simpa [hd, hv]

/-- A walk never removes a skipped link. -/
theorem foldl_skipped_mono (year : Nat) (rows : List Row) :
    ∀ st : ParseState, ∀ l ∈ st.skippedLinks,
      l ∈ (List.foldl (stepRow year) st rows).skippedLinks := by
  induction rows with
  | nil => intro st l h; exact h
  | cons r rs ih =>
    intro st l h
    exact ih _ _ (stepRow_skipped_mono year st r l h)

/-- Membership after a dict assignment: either the assigned pair, or an old
pair with a different key. -/
theorem mem_dictInsert (m : List (List Char × List Char)) (k v l d : List Char)
    (h : (l, d) ∈ dictInsert m k v) : (l = k ∧ d = v) ∨ ((l, d) ∈ m ∧ l ≠ k) := by
  unfold dictInsert at h
  split at h
  · rcases List.mem_map.mp h with ⟨p, hp, hpe⟩
    by_cases hk : p.1 = k
    · simp only [hk, if_true] at hpe
      left
      exact ⟨(Prod.mk.injEq _ _ _ _ ▸ hpe.symm).1, (Prod.mk.injEq _ _ _ _ ▸ hpe.symm).2⟩
    · simp only [hk, if_false] at hpe
      right
      refine ⟨hpe ▸ hp, ?_⟩
      intro hlk
      exact hk (by simp [hpe, hlk])
  · rcases List.mem_append.mp h with h1 | h1
    · by_cases hk : l = k
      · subst hk
        rename_i hany
        exact absurd (List.any_eq_true.mpr ⟨(l, d), h1, by simp⟩) hany
      · exact Or.inr ⟨h1, hk⟩
    · left
      simpa using h1

/-- The assigned pair is always present after a dict assignment. -/
theorem self_mem_dictInsert (m : List (List Char × List Char)) (k v : List Char) :
    (k, v) ∈ dictInsert m k v := by
  unfold dictInsert
  split
  · rename_i hany
    rcases List.any_eq_true.mp hany with ⟨p, hp, hpk⟩
    refine List.mem_map.mpr ⟨p, hp, ?_⟩
    simp only [beq_iff_eq] at hpk
    simp [hpk]
  · simp

/-- A dict assignment to a different key preserves membership of a pair. -/
theorem mem_dictInsert_of_ne (m : List (List Char × List Char)) (k v l d : List Char)
    (hne : l ≠ k) : ((l, d) ∈ dictInsert m k v ↔ (l, d) ∈ m) := by
  constructor
  · intro h
    rcases mem_dictInsert m k v l d h with ⟨h1, _⟩ | ⟨h1, _⟩
    · exact absurd h1 hne
    · exact h1
  · intro h
    unfold dictInsert
    split
    · refine List.mem_map.mpr ⟨(l, d), h, ?_⟩
      simp [hne]
    · exact List.mem_append.mpr (Or.inl h)

/-- The key list after a dict assignment: old keys, plus possibly `k` at the end. -/
theorem keys_dictInsert (m : List (List Char × List Char)) (k v : List Char) :
    (dictInsert m k v).map Prod.fst = m.map Prod.fst ∨
      (dictInsert m k v).map Prod.fst = m.map Prod.fst ++ [k] := by
  unfold dictInsert
  split
  · left
    rw [List.map_map]
    refine List.map_congr_left ?_
    intro p _
    by_cases hk : p.1 = k
    · simp [hk]
    · simp [hk]
  · right
    simp

/-- Dict assignment preserves distinctness of keys. -/
theorem keys_dictInsert_nodup (m : List (List Char × List Char)) (k v : List Char)
    (h : (m.map Prod.fst).Nodup) : ((dictInsert m k v).map Prod.fst).Nodup := by
  unfold dictInsert
  split
  · have : (List.map (fun p => if p.1 = k then (k, v) else p) m).map Prod.fst
        = m.map Prod.fst := by
      rw [List.map_map]
      refine List.map_congr_left ?_
      intro p _
      by_cases hk : p.1 = k
      · simp [hk]
      · simp [hk]
    rw [this]
    exact h
  · rename_i hany
    rw [List.map_append]
    refine List.nodup_append.mpr ⟨h, List.nodup_singleton k, ?_⟩
    intro a ha hb
    simp only [List.map_cons, List.map_nil, List.mem_singleton] at hb
    subst hb
    rcases List.mem_map.mp ha with ⟨p, hp, hpk⟩
    exact hany (List.any_eq_true.mpr ⟨p, hp, by simp [hpk]⟩)

/-- A key present after a dict assignment was present before or is the new key. -/
theorem mem_keys_dictInsert (m : List (List Char × List Char)) (k v l : List Char)
    (h : l ∈ (dictInsert m k v).map Prod.fst) : l ∈ m.map Prod.fst ∨ l = k := by
  rcases keys_dictInsert m k v with he | he
  · rw [he] at h
    exact Or.inl h
  · rw [he] at h
    rcases List.mem_append.mp h with h1 | h1
    · exact Or.inl h1
    · right
      simpa using h1

/-- Origin of a mapping entry: every pair in `paper_date_map` after a walk was
there initially, or comes from an evented row whose extracted link it is, with
the date that the day-row fold had produced just before that row. -/
theorem foldl_mem_paperDateMap (year : Nat) (st : ParseState) (rows : List Row)
    (l d : List Char)
    (h : (l, d) ∈ (List.foldl (stepRow year) st rows).paperDateMap) :
    (l, d) ∈ st.paperDateMap ∨
      ∃ pre vrow post, rows = pre ++ vrow :: post ∧ eventLink year vrow = some l ∧
        List.foldl (dayStep year) st.current pre = some d := by
  induction rows using List.reverseRecOn with
  | nil => exact Or.inl h
  | append_singleton xs r ih =>
    rw [List.foldl_append, List.foldl_cons, List.foldl_nil] at h
    set stx := List.foldl (stepRow year) st xs with hstx
    have hext : ∀ pre vrow post, xs = pre ++ vrow :: post →
        xs ++ [r] = pre ++ vrow :: (post ++ [r]) := by
      intro pre vrow post he
      rw [he]
      simp
    by_cases hd : isDayRow r = true
    · have hmap : (stepRow year stx r).paperDateMap = stx.paperDateMap := by
        unfold stepRow
        simp only [hd, if_true]
        cases parseDayText year r.text <;> rfl
      rw [hmap] at h
      rcases ih h with h1 | ⟨pre, vrow, post, he, hev, hfold⟩
      · exact Or.inl h1
      · exact Or.inr ⟨pre, vrow, post ++ [r], hext pre vrow post he, hev, hfold⟩
    · by_cases hv : isVeventRow r = true
      · cases hfl : findLink year r with
        | none =>
          have hmap : (stepRow year stx r).paperDateMap = stx.paperDateMap := by
            unfold stepRow
            simp [hd, hv, hfl]
          rw [hmap] at h
          rcases ih h with h1 | ⟨pre, vrow, post, he, hev, hfold⟩
          · exact Or.inl h1
          · exact Or.inr ⟨pre, vrow, post ++ [r], hext pre vrow post he, hev, hfold⟩
        | some link =>
          cases hcur : stx.current with
          | none =>
            have hmap : (stepRow year stx r).paperDateMap = stx.paperDateMap := by
              unfold stepRow
              simp [hd, hv, hfl, hcur]
            rw [hmap] at h
            rcases ih h with h1 | ⟨pre, vrow, post, he, hev, hfold⟩
            · exact Or.inl h1
            · exact Or.inr ⟨pre, vrow, post ++ [r], hext pre vrow post he, hev, hfold⟩
          | some d0 =>
            have hmap : (stepRow year stx r).paperDateMap
                = dictInsert stx.paperDateMap link d0 := by
              unfold stepRow
              simp [hd, hv, hfl, hcur]
            rw [hmap] at h
            rcases mem_dictInsert _ _ _ _ _ h with ⟨hl, hdd⟩ | ⟨hmem, _⟩
            · subst hl
              subst hdd
              right
              refine ⟨xs, r, [], by simp, ?_, ?_⟩
              · unfold eventLink
                simp [hd, hv, hfl]
              · have hc := foldl_current year xs st
                rw [← hstx] at hc
                rw [← hc]
                exact hcur
            · rcases ih hmem with h1 | ⟨pre, vrow, post, he, hev, hfold⟩
              · exact Or.inl h1
              · exact Or.inr ⟨pre, vrow, post ++ [r], hext pre vrow post he, hev, hfold⟩
      · have hmap : stepRow year stx r = stx := by
          unfold stepRow
          simp [hd, hv]
        rw [hmap] at h
        rcases ih h with h1 | ⟨pre, vrow, post, he, hev, hfold⟩
        · exact Or.inl h1
        · exact Or.inr ⟨pre, vrow, post ++ [r], hext pre vrow post he, hev, hfold⟩

/-- When the day-row fold (started with no date) produces a date, that date is
the parsed date of the last day row that parsed successfully: a split exists
where every later day row fails to parse. -/
theorem dayFold_eq_some (year : Nat) (pre : List Row) (d : List Char)
    (h : List.foldl (dayStep year) none pre = some d) :
    ∃ p1 drow p2, pre = p1 ++ drow :: p2 ∧ isDayRow drow = true ∧
      parseDayText year drow.text = some d ∧
      ∀ r ∈ p2, isDayRow r = true → parseDayText year r.text = none := by
  induction pre using List.reverseRecOn with
  | nil => exact Option.noConfusion h
  | append_singleton xs r ih =>
    rw [List.foldl_append, List.foldl_cons, List.foldl_nil] at h
    by_cases hd : isDayRow r = true
    · cases hp : parseDayText year r.text with
      | some d2 =>
        have hstep : dayStep year (List.foldl (dayStep year) none xs) r = some d2 := by
          unfold dayStep
          simp [hd, hp]
        rw [hstep] at h
        injection h with h
        exact ⟨xs, r, [], by simp, hd, by rw [hp, h], by simp⟩
      | none =>
        have hstep : dayStep year (List.foldl (dayStep year) none xs) r
            = List.foldl (dayStep year) none xs := by
          unfold dayStep
          simp [hd, hp]
        rw [hstep] at h
        rcases ih h with ⟨p1, drow, p2, he, hdr, hpr, hall⟩
        refine ⟨p1, drow, p2 ++ [r], by rw [he]; simp, hdr, hpr, ?_⟩
        intro r2 hr2 hdr2
        rcases List.mem_append.mp hr2 with h2 | h2
        · exact hall r2 h2 hdr2
        · have heq : r2 = r := by simpa using h2
          rw [heq]
          exact hp
    · have hstep : dayStep year (List.foldl (dayStep year) none xs) r
          = List.foldl (dayStep year) none xs := by
        unfold dayStep
        simp [hd]
      rw [hstep] at h
      rcases ih h with ⟨p1, drow, p2, he, hdr, hpr, hall⟩
      refine ⟨p1, drow, p2 ++ [r], by rw [he]; simp, hdr, hpr, ?_⟩
      intro r2 hr2 hdr2
      rcases List.mem_append.mp hr2 with h2 | h2
      · exact hall r2 h2 hdr2
      · have heq : r2 = r := by simpa using h2
        rw [heq] at hdr2
        exact absurd hdr2 hd

/-- The month table only produces numbers between 1 and 12. -/
theorem monthLookup_le (s : String) (m : Nat) (h : monthLookup s = some m) :
    1 ≤ m ∧ m ≤ 12 := by
  unfold monthLookup at h
  by_cases h1 : s = "january"
  · rw [if_pos h1] at h
    injection h with h
    omega
  · rw [if_neg h1] at h
    by_cases h2 : s = "february"
    · rw [if_pos h2] at h
      injection h with h
      omega
    · rw [if_neg h2] at h
      by_cases h3 : s = "march"
      · rw [if_pos h3] at h
        injection h with h
        omega
      · rw [if_neg h3] at h
        by_cases h4 : s = "april"
        · rw [if_pos h4] at h
          injection h with h
          omega
        · rw [if_neg h4] at h
          by_cases h5 : s = "may"
          · rw [if_pos h5] at h
            injection h with h
            omega
          · rw [if_neg h5] at h
            by_cases h6 : s = "june"
            · rw [if_pos h6] at h
              injection h with h
              omega
            · rw [if_neg h6] at h
              by_cases h7 : s = "july"
              · rw [if_pos h7] at h
                injection h with h
                omega
              · rw [if_neg h7] at h
                by_cases h8 : s = "august"
                · rw [if_pos h8] at h
                  injection h with h
                  omega
                · rw [if_neg h8] at h
                  by_cases h9 : s = "september"
                  · rw [if_pos h9] at h
                    injection h with h
                    omega
                  · rw [if_neg h9] at h
                    by_cases h10 : s = "october"
                    · rw [if_pos h10] at h
                      injection h with h
                      omega
                    · rw [if_neg h10] at h
                      by_cases h11 : s = "november"
                      · rw [if_pos h11] at h
                        injection h with h
                        omega
                      · rw [if_neg h11] at h
                        by_cases h12 : s = "december"
                        · rw [if_pos h12] at h
                          injection h with h
                          omega
                        · rw [if_neg h12] at h
                          exact Option.noConfusion h

/-- A successfully converted month number is between 1 and 12. -/
theorem monthNum_le (w : List Char) (m : Nat) (h : monthNum w = some m) :
    1 ≤ m ∧ m ≤ 12 := by
  unfold monthNum at h
  exact monthLookup_le _ m h

/-- A date produced by a day row has the shape `f"{year}{month:02d}{day:02d}"`
with a month between 1 and 12. -/
theorem parseDayText_fmt (year : Nat) (t d : List Char) (h : parseDayText year t = some d) :
    ∃ m dn, 1 ≤ m ∧ m ≤ 12 ∧ d = fmtDate year m dn := by
  unfold parseDayText at h
  split at h
  · split at h
    · split at h
      · rename_i w day hsearch optm m hm
        injection h with h
        exact ⟨m, day, (monthNum_le w m hm).1, (monthNum_le w m hm).2, h.symm⟩
      · exact Option.noConfusion h
    · exact Option.noConfusion h
  · exact Option.noConfusion h

/-- One row keeps the mapping's keys distinct. -/
theorem stepRow_keys_nodup (year : Nat) (st : ParseState) (row : Row)
    (h : (st.paperDateMap.map Prod.fst).Nodup) :
    ((stepRow year st row).paperDateMap.map Prod.fst).Nodup := by
  unfold stepRow
  by_cases hd : isDayRow row = true
  · simp only [hd, if_true]
    cases parseDayText year row.text <;> exact h
  · simp only [hd]
    by_cases hv : isVeventRow row = true
    · simp only [hv, if_true, if_false]
      cases findLink year row with
      | none => exact h
      | some link =>
        cases st.current with
        | none => exact h
        | some d => exact keys_dictInsert_nodup _ _ _ h
    · simp only [hv]
      exact h

/-- A whole walk keeps the mapping's keys distinct. -/
theorem foldl_keys_nodup (year : Nat) (rows : List Row) :
    ∀ st : ParseState, (st.paperDateMap.map Prod.fst).Nodup →
      ((List.foldl (stepRow year) st rows).paperDateMap.map Prod.fst).Nodup := by
  induction rows with
  | nil => intro st h; exact h
  | cons r rs ih =>
    intro st h
    exact ih _ (stepRow_keys_nodup year st r h)

/-- A row whose extracted event link is not `l` does not disturb an `l` entry. -/
theorem stepRow_mem_preserve (year : Nat) (st : ParseState) (row : Row) (l d : List Char)
    (hne : eventLink year row ≠ some l) (h : (l, d) ∈ st.paperDateMap) :
    (l, d) ∈ (stepRow year st row).paperDateMap := by
  unfold stepRow
  by_cases hd : isDayRow row = true
  · simp only [hd, if_true]
    cases parseDayText year row.text <;> exact h
  · simp only [hd]
    by_cases hv : isVeventRow row = true
    · simp only [hv, if_true, if_false]
      cases hfl : findLink year row with
      | none => exact h
      | some link =>
        cases st.current with
        | none => exact h
        | some d0 =>
          have hlink : l ≠ link := by
            intro he
            apply hne
            unfold eventLink
            rw [if_neg hd, if_pos hv, hfl, he]
          exact (mem_dictInsert_of_ne _ _ _ _ _ hlink).mpr h
    · simp only [hv]
      exact h

/-- A walk over rows none of which extracts the link `l` preserves `l` entries. -/
theorem foldl_mem_preserve (year : Nat) (rows : List Row) (l d : List Char)
    (hno : ∀ r ∈ rows, eventLink year r ≠ some l) :
    ∀ st : ParseState, (l, d) ∈ st.paperDateMap →
      (l, d) ∈ (List.foldl (stepRow year) st rows).paperDateMap := by
  induction rows with
  | nil => intro st h; exact h
  | cons r rs ih =>
    intro st h
    refine ih (fun r2 h2 => hno r2 (List.mem_cons_of_mem r h2)) _ ?_
    exact stepRow_mem_preserve year st r l d (hno r (List.mem_cons_self r rs)) h

/-- If every evented occurrence of `l` happens while no current date is
established, `l` never enters the mapping. -/
theorem foldl_not_mem_keys (year : Nat) (rows : List Row) (l : List Char)
    (hall : ∀ pre vrow post, rows = pre ++ vrow :: post → eventLink year vrow = some l →
      List.foldl (dayStep year) none pre = none) :
    l ∉ ((List.foldl (stepRow year) ⟨[], none, []⟩ rows).paperDateMap.map Prod.fst) := by
  induction rows using List.reverseRecOn with
  | nil => simp
  | append_singleton xs r ih =>
    have hallxs : ∀ pre vrow post, xs = pre ++ vrow :: post → eventLink year vrow = some l →
        List.foldl (dayStep year) none pre = none := by
      intro pre vrow post he hev
      refine hall pre vrow (post ++ [r]) ?_ hev
      rw [he]
      simp
    have ihx := ih hallxs
    rw [List.foldl_append, List.foldl_cons, List.foldl_nil]
    set stx := List.foldl (stepRow year) (⟨[], none, []⟩ : ParseState) xs with hstx
    by_cases hd : isDayRow r = true
    · have hmap : (stepRow year stx r).paperDateMap = stx.paperDateMap := by
        unfold stepRow
        simp only [hd, if_true]
        cases parseDayText year r.text <;> rfl
      rw [hmap]
      exact ihx
    · by_cases hv : isVeventRow r = true
      · cases hfl : findLink year r with
        | none =>
          have hmap : (stepRow year stx r).paperDateMap = stx.paperDateMap := by
            unfold stepRow
            simp [hd, hv, hfl]
          rw [hmap]
          exact ihx
        | some link =>
          cases hcur : stx.current with
          | none =>
            have hmap : (stepRow year stx r).paperDateMap = stx.paperDateMap := by
              unfold stepRow
              simp [hd, hv, hfl, hcur]
            rw [hmap]
            exact ihx
          | some d0 =>
            by_cases hl : link = l
            · exfalso
              have hev : eventLink year r = some l := by
                unfold eventLink
                rw [if_neg hd, if_pos hv, hfl, hl]
              have hnone := hall xs r [] (by simp) hev
              have hc := foldl_current year xs ⟨[], none, []⟩
              rw [← hstx] at hc
              rw [hc, hnone] at hcur
              exact Option.noConfusion hcur
            · have hmap : (stepRow year stx r).paperDateMap
                  = dictInsert stx.paperDateMap link d0 := by
                unfold stepRow
                simp [hd, hv, hfl, hcur]
              rw [hmap]
              intro hmem
              rcases mem_keys_dictInsert _ _ _ _ hmem with h1 | h1
              · exact ihx h1
              · exact hl h1.symm
      · have hmap : stepRow year stx r = stx := by
          unfold stepRow
          simp [hd, hv]
        rw [hmap]
        exact ihx

/-- An evented occurrence of `l` while no current date is established lands
`l` in `skipped_links`. -/
theorem foldl_skipped_of_occurrence (year : Nat) (pre : List Row) (vrow : Row)
    (post : List Row) (l : List Char) (hev : eventLink year vrow = some l)
    (hcur : List.foldl (dayStep year) none pre = none) :
    l ∈ (List.foldl (stepRow year) ⟨[], none, []⟩ (pre ++ vrow :: post)).skippedLinks := by
  rw [List.foldl_append, List.foldl_cons]
  set stp := List.foldl (stepRow year) (⟨[], none, []⟩ : ParseState) pre with hstp
  have hc : stp.current = none := by
    have hcc := foldl_current year pre ⟨[], none, []⟩
    rw [← hstp] at hcc
    rw [hcc]
    exact hcur
  unfold eventLink at hev
  split at hev
  · exact Option.noConfusion hev
  · split at hev
    · have hsk : (stepRow year stp vrow).skippedLinks = stp.skippedLinks ++ [l] := by
        unfold stepRow
        rename_i hd hv
        simp [hd, hv, hev, hc]
      refine foldl_skipped_mono year post _ l ?_
      rw [hsk]
      simp
    · exact Option.noConfusion hev

/-- The pair written at the last evented occurrence of `l` (with the date
current there) survives to the end of the walk. -/
theorem extract_mem_of_last_occurrence (year : Nat) (pre : List Row) (vrow : Row)
    (post : List Row) (l d : List Char) (hev : eventLink year vrow = some l)
    (hno : ∀ r ∈ post, eventLink year r ≠ some l)
    (hcur : List.foldl (dayStep year) none pre = some d) :
    (l, d) ∈ extract_paper_links_with_dates ⟨some (pre ++ vrow :: post)⟩ year := by
  unfold extract_paper_links_with_dates extractFull
  simp only
  rw [List.foldl_append, List.foldl_cons]
  set stp := List.foldl (stepRow year) (⟨[], none, []⟩ : ParseState) pre with hstp
  have hc : stp.current = some d := by
    have hcc := foldl_current year pre ⟨[], none, []⟩
    rw [← hstp] at hcc
    rw [hcc]
    exact hcur
  unfold eventLink at hev
  split at hev
  · exact Option.noConfusion hev
  · split at hev
    · have hmap : (stepRow year stp vrow).paperDateMap = dictInsert stp.paperDateMap l d := by
        unfold stepRow
        rename_i hd hv
        simp [hd, hv, hev, hc]
      refine foldl_mem_preserve year post l d hno _ ?_
      rw [hmap]
      exact self_mem_dictInsert _ _ _
    · exact Option.noConfusion hev

/-! ## Claims about the listing parser -/

/-- C1: for every listing document containing the expected schedule table,
every (link, date) pair emitted by `extract_paper_links_with_dates` has a date
equal to the parsed date of the nearest preceding day row in document order
(the last preceding day row whose text parses; day rows that fail to parse
leave the current date unchanged), formatted as
`f"{year}{month:02d}{day:02d}"`. -/
theorem c1_date_from_nearest_day_row (year : Nat) (soup : ListingDoc) (rows : List Row)
    (hvc : soup.vcalendar = some rows) (l d : List Char)
    (hmem : (l, d) ∈ extract_paper_links_with_dates soup year) :
    ∃ pre1 drow pre2 vrow post,
      rows = pre1 ++ drow :: pre2 ++ vrow :: post ∧
      isDayRow drow = true ∧
      parseDayText year drow.text = some d ∧
      (∀ r ∈ pre2, isDayRow r = true → parseDayText year r.text = none) ∧
      eventLink year vrow = some l ∧
      ∃ m dn, 1 ≤ m ∧ m ≤ 12 ∧ d = fmtDate year m dn := by
  unfold extract_paper_links_with_dates extractFull at hmem
  rw [hvc] at hmem
  rcases foldl_mem_paperDateMap year ⟨[], none, []⟩ rows l d hmem with
    h1 | ⟨pre, vrow, post, he, hev, hfold⟩
  · simp at h1
  · rcases dayFold_eq_some year pre d hfold with ⟨p1, drow, p2, hpe, hdr, hpr, hall2⟩
    refine ⟨p1, drow, p2, vrow, post, ?_, hdr, hpr, hall2, hev,
      parseDayText_fmt year drow.text d hpr⟩
    rw [he, hpe]

/-- Witness for C1 at a concrete two-row table: the day row
`"Monday, August 4"` followed by an evented row with a 2025 paper link. -/
theorem c1_date_from_nearest_day_row_witness :
    (("/smallsat/2025/all2025/7".toList, "20250804".toList) ∈
      extract_paper_links_with_dates
        ⟨some [⟨["day"], "Monday, August 4".toList, []⟩,
               ⟨["vevent"], [], ["/smallsat/2025/all2025/7".toList]⟩]⟩ 2025) ∧
    (∃ pre1 drow pre2 vrow post,
      [(⟨["day"], "Monday, August 4".toList, []⟩ : Row),
       ⟨["vevent"], [], ["/smallsat/2025/all2025/7".toList]⟩]
        = pre1 ++ drow :: pre2 ++ vrow :: post ∧
      isDayRow drow = true ∧
      parseDayText 2025 drow.text = some "20250804".toList ∧
      (∀ r ∈ pre2, isDayRow r = true → parseDayText 2025 r.text = none) ∧
      eventLink 2025 vrow = some "/smallsat/2025/all2025/7".toList ∧
      ∃ m dn, 1 ≤ m ∧ m ≤ 12 ∧ "20250804".toList = fmtDate 2025 m dn) :=
  ⟨by decide,
    c1_date_from_nearest_day_row 2025
      ⟨some [⟨["day"], "Monday, August 4".toList, []⟩,
             ⟨["vevent"], [], ["/smallsat/2025/all2025/7".toList]⟩]⟩
      [⟨["day"], "Monday, August 4".toList, []⟩,
       ⟨["vevent"], [], ["/smallsat/2025/all2025/7".toList]⟩]
      rfl "/smallsat/2025/all2025/7".toList "20250804".toList (by decide)⟩

/-- C3 counterexample: a paper link whose first evented occurrence precedes
any day row is nevertheless included in the returned mapping when the same
link occurs again after a day row (the first occurrence is recorded as
skipped, but the claim's "never included in the mapping" fails). -/
theorem c3_counterexample :
    eventLink 2025 ⟨["vevent"], [], ["/smallsat/2025/all2025/7".toList]⟩
      = some "/smallsat/2025/all2025/7".toList ∧
    "/smallsat/2025/all2025/7".toList ∈
      (extractFull
        ⟨some [⟨["vevent"], [], ["/smallsat/2025/all2025/7".toList]⟩,
               ⟨["day"], "Monday, August 4".toList, []⟩,
               ⟨["vevent"], [], ["/smallsat/2025/all2025/7".toList]⟩]⟩ 2025).skippedLinks ∧
    ("/smallsat/2025/all2025/7".toList, "20250804".toList) ∈
      extract_paper_links_with_dates
        ⟨some [⟨["vevent"], [], ["/smallsat/2025/all2025/7".toList]⟩,
               ⟨["day"], "Monday, August 4".toList, []⟩,
               ⟨["vevent"], [], ["/smallsat/2025/all2025/7".toList]⟩]⟩ 2025 := by
  decide

/-- C3 (amended): an evented occurrence of a link while no current date is
established is recorded in `skipped_links`; and a link all of whose evented
occurrences happen while no current date is established is never included in
the returned mapping.  (A link occurring again after a day row establishes a
date is included, with that date.) -/
theorem c3_amended (year : Nat) (rows : List Row) (l : List Char)
    (hall : ∀ pre vrow post, rows = pre ++ vrow :: post → eventLink year vrow = some l →
      List.foldl (dayStep year) none pre = none) :
    l ∉ (extract_paper_links_with_dates ⟨some rows⟩ year).map Prod.fst ∧
    ∀ pre vrow post, rows = pre ++ vrow :: post → eventLink year vrow = some l →
      l ∈ (extractFull ⟨some rows⟩ year).skippedLinks := by
  constructor
  · exact foldl_not_mem_keys year rows l hall
  · intro pre vrow post he hev
    show l ∈ (List.foldl (stepRow year) ⟨[], none, []⟩ rows).skippedLinks
    rw [he]
    exact foldl_skipped_of_occurrence year pre vrow post l hev (hall pre vrow post he hev)

/-- Witness for the amended C3 at a one-row table consisting of a single
evented row: its link is skipped and absent from the mapping. -/
theorem c3_amended_witness :
    "/smallsat/2025/all2025/7".toList ∉
      (extract_paper_links_with_dates
        ⟨some [⟨["vevent"], [], ["/smallsat/2025/all2025/7".toList]⟩]⟩ 2025).map Prod.fst ∧
    "/smallsat/2025/all2025/7".toList ∈
      (extractFull
        ⟨some [⟨["vevent"], [], ["/smallsat/2025/all2025/7".toList]⟩]⟩ 2025).skippedLinks := by
  have hall : ∀ pre vrow post,
      [(⟨["vevent"], [], ["/smallsat/2025/all2025/7".toList]⟩ : Row)] = pre ++ vrow :: post →
      eventLink 2025 vrow = some "/smallsat/2025/all2025/7".toList →
      List.foldl (dayStep 2025) none pre = none := by
    intro pre vrow post hsplit _
    rcases pre with _ | ⟨x, pre2⟩
    · rfl
    · simp only [List.cons_append, List.cons.injEq] at hsplit
      exact absurd hsplit.2.symm (List.append_ne_nil_of_right_ne_nil pre2 (by simp))
  have h := c3_amended 2025 [⟨["vevent"], [], ["/smallsat/2025/all2025/7".toList]⟩]
    "/smallsat/2025/all2025/7".toList hall
  exact ⟨h.1, h.2 [] ⟨["vevent"], [], ["/smallsat/2025/all2025/7".toList]⟩ [] rfl (by decide)⟩

/-- C10 counterexample: a link appearing in two evented rows, both before any
day row, yields no entry at all in the returned mapping (not "exactly one
entry"). -/
theorem c10_counterexample :
    eventLink 2025 ⟨["vevent"], [], ["/smallsat/2025/all2025/7".toList]⟩
      = some "/smallsat/2025/all2025/7".toList ∧
    extract_paper_links_with_dates
      ⟨some [⟨["vevent"], [], ["/smallsat/2025/all2025/7".toList]⟩,
             ⟨["vevent"], [], ["/smallsat/2025/all2025/7".toList]⟩]⟩ 2025 = [] := by
  decide

/-- C10 (amended): the returned mapping has at most one entry per link (its
keys are distinct), and whenever a link's last evented occurrence happens
with an established current date `d`, the pair (link, `d`) is in the mapping
— later occurrences overwrite earlier ones.  If no occurrence has an
established date, the link is absent. -/
theorem c10_amended (year : Nat) (rows : List Row) :
    ((extract_paper_links_with_dates ⟨some rows⟩ year).map Prod.fst).Nodup ∧
    ∀ pre vrow post l d, rows = pre ++ vrow :: post →
      eventLink year vrow = some l →
      (∀ r ∈ post, eventLink year r ≠ some l) →
      List.foldl (dayStep year) none pre = some d →
      (l, d) ∈ extract_paper_links_with_dates ⟨some rows⟩ year := by
  constructor
  · exact foldl_keys_nodup year rows ⟨[], none, []⟩ (by simp)
  · intro pre vrow post l d he hev hno hcur
    rw [he]
    exact extract_mem_of_last_occurrence year pre vrow post l d hev hno hcur

/-- Witness for the amended C10: in a day-then-event table the pair survives
to the returned mapping. -/
theorem c10_amended_witness :
    ("/smallsat/2025/all2025/7".toList, "20250804".toList) ∈
      extract_paper_links_with_dates
        ⟨some [⟨["day"], "Monday, August 4".toList, []⟩,
               ⟨["vevent"], [], ["/smallsat/2025/all2025/7".toList]⟩]⟩ 2025 :=
  (c10_amended 2025
    [⟨["day"], "Monday, August 4".toList, []⟩,
     ⟨["vevent"], [], ["/smallsat/2025/all2025/7".toList]⟩]).2
    [⟨["day"], "Monday, August 4".toList, []⟩]
    ⟨["vevent"], [], ["/smallsat/2025/all2025/7".toList]⟩ []
    "/smallsat/2025/all2025/7".toList "20250804".toList
    rfl (by decide) (by simp) (by decide)

/-! ## Lemmas about title splitting and the downloader -/

/-- `takeWhile (not the separator)` keeps a separator-free list whole. -/
theorem takeWhile_ne_of_not_mem (sep : Char) (t : List Char) (h : sep ∉ t) :
    t.takeWhile (· != sep) = t := by
  induction t with
  | nil => rfl
  | cons c r ih =>
    have hc : c ≠ sep := by
      intro he
      exact h (he ▸ List.mem_cons_self c r)
    have hr : sep ∉ r := fun hm => h (List.mem_cons_of_mem c hm)
    simp [List.takeWhile_cons, hc, ih hr]

/-- Unrolling of Python `split` on one character: field before the first
separator, then the split of the remainder; the whole list if none occurs. -/
theorem pySplit_eq (sep : Char) (s : List Char) :
    pySplit sep s =
      if sep ∈ s then
        s.takeWhile (· != sep) :: pySplit sep ((s.dropWhile (· != sep)).drop 1)
      else [s] := by
  induction s with
  | nil => simp [pySplit]
  | cons c rest ih =>
    by_cases hc : c = sep
    · subst hc
      simp only [pySplit, if_pos rfl, if_pos (List.mem_cons_self c rest)]
      simp [List.takeWhile_cons, List.dropWhile_cons]
    · by_cases hr : sep ∈ rest
      · simp only [pySplit, if_neg hc]
        rw [ih, if_pos hr, if_pos (List.mem_cons_of_mem c hr)]
        simp [List.takeWhile_cons, List.dropWhile_cons, hc]
    
      · simp only [pySplit, if_neg hc]
        rw [ih, if_neg hr, if_neg (by simp [List.mem_cons, not_or]; exact ⟨Ne.symm hc, hr⟩)]

/-- Python `split` never returns an empty list of fields. -/
theorem pySplit_ne_nil (sep : Char) (s : List Char) : pySplit sep s ≠ [] := by
  rw [pySplit_eq]
  split <;> simp

/-! ## Claims about the paper page extractor -/

/-- C4 counterexample: `get_article_title` splits on every colon and keeps
only the second field, so on a title with two colons it does not return the
portion after the first colon (which the spec model `titleSpecModel` yields). -/
theorem c4_counterexample :
    get_article_title ⟨some "X: A: B".toList, none, none, []⟩ = "A".toList ∧
    titleSpecModel "X: A: B".toList = "A: B".toList ∧
    "A".toList ≠ "A: B".toList := by
  decide


/-- Evaluation of `get_article_title` when the split has at least two fields:
the second field, stripped. -/
theorem get_article_title_two (s : List Char) (adv : Option AbsDiv)
    (md : Option (Option (List Char))) (an : List (List Char))
    (g0 g1 : List Char) (gs : List (List Char)) (h : pySplit ':' s = g0 :: g1 :: gs) :
    get_article_title ⟨some s, adv, md, an⟩ = pyStrip g1 := by
  simp only [get_article_title, h]

/-- Evaluation of `get_article_title` when the split has one field:
that field, stripped. -/
theorem get_article_title_one (s : List Char) (adv : Option AbsDiv)
    (md : Option (Option (List Char))) (an : List (List Char))
    (g0 : List Char) (h : pySplit ':' s = [g0]) :
    get_article_title ⟨some s, adv, md, an⟩ = pyStrip g0 := by
  simp only [get_article_title, h]

/-- C4 (amended): `get_article_title` returns, trimmed, the portion of the
title string strictly between the first and the second colon when a colon is
present (`split(':')[1]`, not everything after the first colon); the whole
string trimmed when no colon is present; and the sentinel `"UnknownTitle"`
when there is no title string. -/
theorem c4_amended (doc : PaperDoc) :
    (∀ s, doc.title = some s →
      ((':' ∈ s → get_article_title doc
          = pyStrip (((s.dropWhile (· != ':')).drop 1).takeWhile (· != ':'))) ∧
       (':' ∉ s → get_article_title doc = pyStrip s))) ∧
    (doc.title = none → get_article_title doc = "UnknownTitle".toList) := by
  obtain ⟨t, adv, md, an⟩ := doc
  constructor
  · intro s hs
    have ht : t = some s := hs
    subst ht
    constructor
    · intro hcolon
      have hsp := pySplit_eq ':' s
      rw [if_pos hcolon] at hsp
      rcases hrec : pySplit ':' ((s.dropWhile (· != ':')).drop 1) with _ | ⟨g, gs⟩
      · exact absurd hrec (pySplit_ne_nil ':' _)
      · rw [hrec] at hsp
        rw [get_article_title_two s adv md an _ g gs hsp]
        have hh := pySplit_eq ':' ((s.dropWhile (· != ':')).drop 1)
        rw [hrec] at hh
        split at hh
        · have hg : g = ((s.dropWhile (· != ':')).drop 1).takeWhile (· != ':') :=
            (List.cons.injEq _ _ _ _ ▸ hh).1
          rw [hg]
        · have hg : g = (s.dropWhile (· != ':')).drop 1 :=
            (List.cons.injEq _ _ _ _ ▸ hh).1
          rename_i hnm
          rw [hg, takeWhile_ne_of_not_mem ':' _ hnm]
    · intro hcolon
      have hsp := pySplit_eq ':' s
      rw [if_neg hcolon] at hsp
      rw [get_article_title_one s adv md an s hsp]
  · intro hn
    have ht : t = none := hn
    subst ht
    rfl

/-- Witness for the amended C4 at the spec's own examples. -/
theorem c4_amended_witness :
    get_article_title ⟨some "SmallSat 2025: My Great Paper".toList, none, none, []⟩
      = "My Great Paper".toList ∧
    get_article_title ⟨some "NoColonTitle".toList, none, none, []⟩
      = "NoColonTitle".toList ∧
    get_article_title ⟨none, none, none, []⟩ = "UnknownTitle".toList :=
  ⟨(((c4_amended ⟨some "SmallSat 2025: My Great Paper".toList, none, none, []⟩).1
      "SmallSat 2025: My Great Paper".toList rfl).1 (by decide)).trans (by decide),
   (((c4_amended ⟨some "NoColonTitle".toList, none, none, []⟩).1
      "NoColonTitle".toList rfl).2 (by decide)).trans (by decide),
   (c4_amended ⟨none, none, none, []⟩).2 rfl⟩

/-- Evaluation of the abstract block when the container has a paragraph. -/
theorem extract_abstract_someP (t : Option (List Char)) (ad : AbsDiv)
    (md : Option (Option (List Char))) (an : List (List Char)) (p : List Char)
    (hp : ad.firstP = some p) :
    extract_abstract ⟨t, some ad, md, an⟩ = p := by
  simp only [extract_abstract, hp]

/-- Evaluation of the abstract block when the container has no paragraph. -/
theorem extract_abstract_noP (t : Option (List Char)) (ad : AbsDiv)
    (md : Option (Option (List Char))) (an : List (List Char))
    (hp : ad.firstP = none) :
    extract_abstract ⟨t, some ad, md, an⟩ = ad.text := by
  simp only [extract_abstract, hp]

/-- C5: the abstract is a strict three-tier fallback: the container's first
paragraph, else the container's own text, else the meta description content
(when the tag exists and its content is truthy), else empty; and when a
container exists the result does not depend on the meta description at all. -/
theorem c5_abstract_fallback (doc : PaperDoc) :
    (∀ ad, doc.absDiv = some ad →
      extract_abstract doc = extract_abstract ⟨doc.title, some ad, none, doc.anchors⟩ ∧
      (∀ p, ad.firstP = some p → extract_abstract doc = p) ∧
      (ad.firstP = none → extract_abstract doc = ad.text)) ∧
    (doc.absDiv = none →
      ((∀ c, doc.metaDesc = some (some c) → c ≠ [] → extract_abstract doc = c) ∧
       (doc.metaDesc = some (some []) → extract_abstract doc = []) ∧
       (doc.metaDesc = some none → extract_abstract doc = []) ∧
       (doc.metaDesc = none → extract_abstract doc = []))) := by
  obtain ⟨t, adv, md, an⟩ := doc
  constructor
  · intro ad had
    have ha : adv = some ad := had
    subst ha
    dsimp only
    refine ⟨?_, ?_, ?_⟩
    · cases hf : ad.firstP with
      | some p =>
        rw [extract_abstract_someP t ad md an p hf]
        rw [extract_abstract_someP t ad none an p hf]
      | none =>
        rw [extract_abstract_noP t ad md an hf]
        rw [extract_abstract_noP t ad none an hf]
    · intro p hp
      exact extract_abstract_someP t ad md an p hp
    · intro hp
      exact extract_abstract_noP t ad md an hp
  · intro hnone
    have ha : adv = none := hnone
    subst ha
    refine ⟨?_, ?_, ?_, ?_⟩
    · intro c hc hcne
      have hm : md = some (some c) := hc
      subst hm
      show (if c.isEmpty then [] else c) = c
      cases c with
      | nil => exact absurd rfl hcne
      | cons a as => rfl
    · intro hc
      have hm : md = some (some []) := hc
      subst hm
      rfl
    · intro hc
      have hm : md = some none := hc
      subst hm
      rfl
    · intro hc
      have hm : md = none := hc
      subst hm
      rfl

/-- Witness for C5: with both a container and a meta description present the
container wins; with a paragraph-less container its own text is used; with no
container the meta content is used. -/
theorem c5_abstract_fallback_witness :
    extract_abstract ⟨none, some ⟨some "ABS".toList, "DIVTEXT".toList⟩,
      some (some "META".toList), []⟩ = "ABS".toList ∧
    extract_abstract ⟨none, some ⟨none, "DIVTEXT".toList⟩,
      some (some "META".toList), []⟩ = "DIVTEXT".toList ∧
    extract_abstract ⟨none, none, some (some "META".toList), []⟩ = "META".toList :=
  ⟨((c5_abstract_fallback ⟨none, some ⟨some "ABS".toList, "DIVTEXT".toList⟩,
      some (some "META".toList), []⟩).1 _ rfl).2.1 "ABS".toList rfl,
   ((c5_abstract_fallback ⟨none, some ⟨none, "DIVTEXT".toList⟩,
      some (some "META".toList), []⟩).1 _ rfl).2.2 rfl,
   ((c5_abstract_fallback ⟨none, none, some (some "META".toList), []⟩).2 rfl).1
      "META".toList rfl (by decide)⟩

/-- Unrolling of the retry loop at a successful attempt. -/
theorem downloadGo_succ_of_ok (ok : Nat → Bool) (a n : Nat) (h : ok a = true) :
    downloadGo ok a (n + 1) = (true, [DlEvent.attempt a]) := by
  simp [downloadGo, h]

/-- Unrolling of the retry loop at a failed attempt: record the attempt and
the sleep, then keep going. -/
theorem downloadGo_succ_of_fail (ok : Nat → Bool) (a n : Nat) (h : ¬ok a = true) :
    downloadGo ok a (n + 1)
      = ((downloadGo ok (a + 1) n).1,
         DlEvent.attempt a :: DlEvent.sleep :: (downloadGo ok (a + 1) n).2) := by
  simp [downloadGo, h]

/-- The retry loop makes at most as many attempts as it has budget. -/
theorem downloadGo_attempts_le (ok : Nat → Bool) (r : Nat) :
    ∀ a, ((downloadGo ok a r).2.countP DlEvent.isAttempt) ≤ r := by
  induction r with
  | zero =>
    intro a
    simp [downloadGo]
  | succ n ih =>
    intro a
    by_cases h : ok a = true
    · rw [downloadGo_succ_of_ok ok a n h]
      simp [List.countP_cons, DlEvent.isAttempt]
    · rw [downloadGo_succ_of_fail ok a n h]
      show ((DlEvent.attempt a :: DlEvent.sleep ::
          (downloadGo ok (a + 1) n).2).countP DlEvent.isAttempt) ≤ n + 1
      rw [List.countP_cons, List.countP_cons]
      have hih := ih (a + 1)
      simp only [DlEvent.isAttempt]
      norm_num
      omega

/-- The retry loop succeeds exactly when some attempt in its window succeeds. -/
theorem downloadGo_true_iff (ok : Nat → Bool) (r : Nat) :
    ∀ a, ((downloadGo ok a r).1 = true ↔ ∃ i, a ≤ i ∧ i < a + r ∧ ok i = true) := by
  induction r with
  | zero =>
    intro a
    simp only [downloadGo]
    constructor
    · intro h
      exact Bool.noConfusion h
    · rintro ⟨i, h1, h2, _⟩
      omega
  | succ n ih =>
    intro a
    by_cases h : ok a = true
    · rw [downloadGo_succ_of_ok ok a n h]
      constructor
      · intro _
        exact ⟨a, Nat.le_refl a, by omega, h⟩
      · intro _
        rfl
    · rw [downloadGo_succ_of_fail ok a n h]
      show (downloadGo ok (a + 1) n).1 = true ↔ _
      rw [ih (a + 1)]
      constructor
      · rintro ⟨i, h1, h2, h3⟩
        exact ⟨i, by omega, by omega, h3⟩
      · rintro ⟨i, h1, h2, h3⟩
        refine ⟨i, ?_, by omega, h3⟩
        rcases Nat.eq_or_lt_of_le h1 with he | hl
        · exact absurd (he ▸ h3) h
        · omega

/-- In the retry loop's trace, no two attempts are adjacent: a sleep separates
any two consecutive attempts. -/
theorem downloadGo_chain (ok : Nat → Bool) (r : Nat) :
    ∀ a, List.Chain' (fun x y => x = DlEvent.sleep ∨ y = DlEvent.sleep)
      (downloadGo ok a r).2 := by
  induction r with
  | zero =>
    intro a
    simp [downloadGo]
  | succ n ih =>
    intro a
    by_cases h : ok a = true
    · rw [downloadGo_succ_of_ok ok a n h]
      simp
    · rw [downloadGo_succ_of_fail ok a n h]
      show List.Chain' _ (DlEvent.attempt a :: DlEvent.sleep :: (downloadGo ok (a + 1) n).2)
      rw [List.chain'_cons]
      refine ⟨Or.inr rfl, ?_⟩
      rw [List.chain'_cons']
      exact ⟨fun y _ => Or.inl rfl, ih (a + 1)⟩

/-! ## Claim about the downloader -/

/-- C8: `download_pdf` is the success flag of a loop of at most 5 attempts;
it returns true exactly when one of attempts 1..5 succeeds (in particular
after 4 failures and a success on the 5th) and false when all 5 fail, and a
sleep separates consecutive attempts.  Being a total function of the attempt
oracle, it propagates no exception. -/
theorem c8_download_retry (ok : Nat → Bool) :
    download_pdf ok = (downloadGo ok 1 5).1 ∧
    ((downloadGo ok 1 5).2.countP DlEvent.isAttempt) ≤ 5 ∧
    (download_pdf ok = true ↔ ∃ i, 1 ≤ i ∧ i ≤ 5 ∧ ok i = true) ∧
    List.Chain' (fun x y => x = DlEvent.sleep ∨ y = DlEvent.sleep)
      (downloadGo ok 1 5).2 := by
  refine ⟨rfl, downloadGo_attempts_le ok 5 1, ?_, downloadGo_chain ok 5 1⟩
  unfold download_pdf
  rw [downloadGo_true_iff ok 5 1]
  constructor
  · rintro ⟨i, h1, h2, h3⟩
    exact ⟨i, h1, by omega, h3⟩
  · rintro ⟨i, h1, h2, h3⟩
    exact ⟨i, h1, by omega, h3⟩

/-! ## Lemmas about the run driver loop -/

/-- The loop does nothing on an empty listing. -/
theorem runLoop_nil (cfg : Config) (f : List Char → Option PaperDoc)
    (pe : List Char → Bool) (st : RunState) : runLoop cfg f pe [] st = st := rfl

/-- An already-processed link is skipped with no state change. -/
theorem runLoop_skip (cfg : Config) (f : List Char → Option PaperDoc)
    (pe : List Char → Bool) (rel paperDate : List Char)
    (rest : List (List Char × List Char)) (st : RunState) (h : rel ∈ st.processed) :
    runLoop cfg f pe ((rel, paperDate) :: rest) st = runLoop cfg f pe rest st := by
  simp [runLoop, h]

/-- A failed page fetch records only the fetch and moves on. -/
theorem runLoop_fetch_fail (cfg : Config) (f : List Char → Option PaperDoc)
    (pe : List Char → Bool) (rel paperDate : List Char)
    (rest : List (List Char × List Char)) (st : RunState)
    (h1 : rel ∉ st.processed) (h2 : f (fullLink rel) = none) :
    runLoop cfg f pe ((rel, paperDate) :: rest) st
      = runLoop cfg f pe rest (withFetch st rel) := by
  simp [runLoop, h1, h2]

/-- A fetched paper without a PDF link is recorded and the loop moves on
without a write. -/
theorem runLoop_no_pdf (cfg : Config) (f : List Char → Option PaperDoc)
    (pe : List Char → Bool) (rel paperDate : List Char)
    (rest : List (List Char × List Char)) (st : RunState) (doc : PaperDoc)
    (h1 : rel ∉ st.processed) (h2 : f (fullLink rel) = some doc)
    (h3 : find_pdf_link doc = none) :
    runLoop cfg f pe ((rel, paperDate) :: rest) st
      = runLoop cfg f pe rest (recordPaper (withFetch st rel) doc paperDate rel) := by
  simp [runLoop, h1, h2, h3]

/-- A fetched paper with a PDF link is recorded, downloaded when needed,
counted and written; the loop breaks if the smoke-test cap is reached. -/
theorem runLoop_pdf (cfg : Config) (f : List Char → Option PaperDoc)
    (pe : List Char → Bool) (rel paperDate : List Char)
    (rest : List (List Char × List Char)) (st : RunState) (doc : PaperDoc)
    (url : List Char) (h1 : rel ∉ st.processed) (h2 : f (fullLink rel) = some doc)
    (h3 : find_pdf_link doc = some url) :
    runLoop cfg f pe ((rel, paperDate) :: rest) st
      = (if cfg.testFlag ∧ 3 ≤ (afterPdf cfg pe (recordPaper (withFetch st rel)
            doc paperDate rel) doc paperDate rel url).count
         then afterPdf cfg pe (recordPaper (withFetch st rel) doc paperDate rel)
            doc paperDate rel url
         else runLoop cfg f pe rest (afterPdf cfg pe (recordPaper (withFetch st rel)
            doc paperDate rel) doc paperDate rel url)) := by
  simp [runLoop, h1, h2, h3]

/-- Explicit form of the state after recording a fetched paper. -/
theorem recordPaper_withFetch_eq (st : RunState) (doc : PaperDoc) (paperDate rel : List Char) :
    recordPaper (withFetch st rel) doc paperDate rel
      = ⟨st.papersInfo ++ [mkRecord doc paperDate rel], st.processed ++ [rel], st.count,
         st.fetches ++ [rel], st.writes, st.downloads⟩ := rfl

/-- Explicit form of the state after the download-count-write block. -/
theorem afterPdf_record_eq (cfg : Config) (pe : List Char → Bool) (st : RunState)
    (doc : PaperDoc) (paperDate rel url : List Char) :
    afterPdf cfg pe (recordPaper (withFetch st rel) doc paperDate rel) doc paperDate rel url
      = ⟨st.papersInfo ++ [mkRecord doc paperDate rel], st.processed ++ [rel], st.count + 1,
         st.fetches ++ [rel], st.writes ++ [st.papersInfo ++ [mkRecord doc paperDate rel]],
         st.downloads ++ (if cfg.downloadFlag && !pe (pdfFileName doc paperDate)
            then [(rel, url)] else [])⟩ := by
  by_cases hc : (cfg.downloadFlag && !pe (pdfFileName doc paperDate)) = true
  · simp [afterPdf, recordPaper, withFetch, hc]
  · simp [afterPdf, recordPaper, withFetch, hc]

/-- `agreeExceptFetches` is reflexive. -/
theorem agree_refl (s : RunState) : agreeExceptFetches s s := ⟨rfl, rfl, rfl, rfl, rfl⟩

/-- The loop's behaviour does not depend on the fetch trace: states agreeing
on everything else evolve to states agreeing on everything else. -/
theorem runLoop_agree (cfg : Config) (f : List Char → Option PaperDoc)
    (pe : List Char → Bool) :
    ∀ (pairs : List (List Char × List Char)) (st1 st2 : RunState),
      agreeExceptFetches st1 st2 →
      agreeExceptFetches (runLoop cfg f pe pairs st1) (runLoop cfg f pe pairs st2) := by
  intro pairs
  induction pairs with
  | nil => intro st1 st2 h; exact h
  | cons p rest ih =>
    rcases p with ⟨rel, paperDate⟩
    intro st1 st2 h
    obtain ⟨hp, hpr, hc, hw, hd⟩ := h
    by_cases hmem : rel ∈ st1.processed
    · have hmem2 : rel ∈ st2.processed := hpr ▸ hmem
      rw [runLoop_skip _ _ _ _ _ _ _ hmem, runLoop_skip _ _ _ _ _ _ _ hmem2]
      exact ih st1 st2 ⟨hp, hpr, hc, hw, hd⟩
    · have hmem2 : rel ∉ st2.processed := fun hx => hmem (hpr ▸ hx)
      cases hf : f (fullLink rel) with
      | none =>
        rw [runLoop_fetch_fail _ _ _ _ _ _ _ hmem hf,
          runLoop_fetch_fail _ _ _ _ _ _ _ hmem2 hf]
        exact ih _ _ ⟨hp, hpr, hc, hw, hd⟩
      | some doc =>
        cases hpdf : find_pdf_link doc with
        | none =>
          rw [runLoop_no_pdf _ _ _ _ _ _ _ _ hmem hf hpdf,
            runLoop_no_pdf _ _ _ _ _ _ _ _ hmem2 hf hpdf]
          refine ih _ _ ?_
          rw [recordPaper_withFetch_eq, recordPaper_withFetch_eq]
          exact ⟨by rw [hp], by rw [hpr], hc, hw, hd⟩
        | some url =>
          rw [runLoop_pdf _ _ _ _ _ _ _ _ _ hmem hf hpdf,
            runLoop_pdf _ _ _ _ _ _ _ _ _ hmem2 hf hpdf]
          rw [afterPdf_record_eq, afterPdf_record_eq]
          have hagree : agreeExceptFetches
              (⟨st1.papersInfo ++ [mkRecord doc paperDate rel], st1.processed ++ [rel],
                st1.count + 1, st1.fetches ++ [rel],
                st1.writes ++ [st1.papersInfo ++ [mkRecord doc paperDate rel]],
                st1.downloads ++ (if cfg.downloadFlag && !pe (pdfFileName doc paperDate)
                  then [(rel, url)] else [])⟩ : RunState)
              (⟨st2.papersInfo ++ [mkRecord doc paperDate rel], st2.processed ++ [rel],
                st2.count + 1, st2.fetches ++ [rel],
                st2.writes ++ [st2.papersInfo ++ [mkRecord doc paperDate rel]],
                st2.downloads ++ (if cfg.downloadFlag && !pe (pdfFileName doc paperDate)
                  then [(rel, url)] else [])⟩ : RunState) := by
            exact ⟨by rw [hp], by rw [hpr], by rw [hc], by rw [hw, hp], by rw [hd]⟩
          by_cases hbr : cfg.testFlag ∧ 3 ≤ st1.count + 1
          · have hbr2 : cfg.testFlag ∧ 3 ≤ st2.count + 1 := by rw [← hc]; exact hbr
            rw [if_pos hbr, if_pos hbr2]
            exact hagree
          · have hbr2 : ¬(cfg.testFlag ∧ 3 ≤ st2.count + 1) := by rw [← hc]; exact hbr
            rw [if_neg hbr, if_neg hbr2]
            exact ih _ _ hagree

/-- Removing a pair whose page fetch fails changes nothing but the fetch
trace, wherever it sits in the listing. -/
theorem runLoop_drop_failed (cfg : Config) (f : List Char → Option PaperDoc)
    (pe : List Char → Bool) (l d : List Char) (hf : f (fullLink l) = none) :
    ∀ (pre post : List (List Char × List Char)) (st : RunState),
      agreeExceptFetches (runLoop cfg f pe (pre ++ (l, d) :: post) st)
        (runLoop cfg f pe (pre ++ post) st) := by
  intro pre
  induction pre with
  | nil =>
    intro post st
    simp only [List.nil_append]
    by_cases hmem : l ∈ st.processed
    · rw [runLoop_skip _ _ _ _ _ _ _ hmem]
      exact agree_refl _
    · rw [runLoop_fetch_fail _ _ _ _ _ _ _ hmem hf]
      exact runLoop_agree cfg f pe post _ _ ⟨rfl, rfl, rfl, rfl, rfl⟩
  | cons p pre2 ih =>
    rcases p with ⟨rel, paperDate⟩
    intro post st
    simp only [List.cons_append]
    by_cases hmem : rel ∈ st.processed
    · rw [runLoop_skip _ _ _ _ _ _ _ hmem, runLoop_skip _ _ _ _ _ _ _ hmem]
      exact ih post st
    · cases hfr : f (fullLink rel) with
      | none =>
        rw [runLoop_fetch_fail _ _ _ _ _ _ _ hmem hfr,
          runLoop_fetch_fail _ _ _ _ _ _ _ hmem hfr]
        exact ih post _
      | some doc =>
        cases hpdf : find_pdf_link doc with
        | none =>
          rw [runLoop_no_pdf _ _ _ _ _ _ _ _ hmem hfr hpdf,
            runLoop_no_pdf _ _ _ _ _ _ _ _ hmem hfr hpdf]
          exact ih post _
        | some url =>
          rw [runLoop_pdf _ _ _ _ _ _ _ _ _ hmem hfr hpdf,
            runLoop_pdf _ _ _ _ _ _ _ _ _ hmem hfr hpdf]
          by_cases hbr : cfg.testFlag ∧ 3 ≤ (afterPdf cfg pe (recordPaper (withFetch st rel)
              doc paperDate rel) doc paperDate rel url).count
          · rw [if_pos hbr, if_pos hbr]
            exact agree_refl _
          · rw [if_neg hbr, if_neg hbr]
            exact ih post _

/-- Structure of a whole loop run: the records, processed links, fetch trace,
writes and downloads each extend their initial values; new records appear in
listing order, are a subsequence of the fetched links (which are a
subsequence of the listing links, none previously processed, and the new
links are distinct); every write is the full collection at its time, and
every download belongs to a newly recorded paper. -/
theorem runLoop_main (cfg : Config) (f : List Char → Option PaperDoc)
    (pe : List Char → Bool) :
    ∀ (pairs : List (List Char × List Char)) (st : RunState),
      ∃ ext fext wext dext,
        (runLoop cfg f pe pairs st).papersInfo = st.papersInfo ++ ext ∧
        (runLoop cfg f pe pairs st).processed
          = st.processed ++ ext.map (fun r => r.link) ∧
        (runLoop cfg f pe pairs st).fetches = st.fetches ++ fext ∧
        (runLoop cfg f pe pairs st).writes = st.writes ++ wext ∧
        (runLoop cfg f pe pairs st).downloads = st.downloads ++ dext ∧
        List.Sublist (ext.map fun r => r.link) fext ∧
        List.Sublist fext (pairs.map Prod.fst) ∧
        (∀ l ∈ fext, l ∉ st.processed) ∧
        (ext.map fun r => r.link).Nodup ∧
        (∀ w ∈ wext, ∃ pfx tl, ext = pfx ++ tl ∧ w = st.papersInfo ++ pfx) ∧
        (∀ p ∈ dext, p.1 ∈ ext.map fun r => r.link) := by
  intro pairs
  induction pairs with
  | nil =>
    intro st
    refine ⟨[], [], [], [], by simp [runLoop_nil], by simp [runLoop_nil],
      by simp [runLoop_nil], by simp [runLoop_nil], by simp [runLoop_nil],
      List.nil_sublist _, List.nil_sublist _, by simp, List.nodup_nil, by simp, by simp⟩
  | cons p rest ih =>
    rcases p with ⟨rel, paperDate⟩
    intro st
    by_cases hmem : rel ∈ st.processed
    · rw [runLoop_skip _ _ _ _ _ _ _ hmem]
      obtain ⟨ext, fext, wext, dext, h1, h2, h3, h4, h5, h6, h7, h8, h9, h10, h11⟩ := ih st
      exact ⟨ext, fext, wext, dext, h1, h2, h3, h4, h5, h6,
        List.Sublist.cons _ h7, h8, h9, h10, h11⟩
    · cases hf : f (fullLink rel) with
      | none =>
        rw [runLoop_fetch_fail _ _ _ _ _ _ _ hmem hf]
        obtain ⟨ext, fext, wext, dext, h1, h2, h3, h4, h5, h6, h7, h8, h9, h10, h11⟩ :=
          ih (withFetch st rel)
        refine ⟨ext, rel :: fext, wext, dext, h1, h2, ?_, h4, h5,
          List.Sublist.cons _ h6, List.Sublist.cons₂ _ h7, ?_, h9, h10, h11⟩
        · rw [h3]
          show st.fetches ++ [rel] ++ fext = _
          simp
        · intro l hl
          rcases List.mem_cons.mp hl with hle | hle
          · rw [hle]
            exact hmem
          · exact h8 l hle
      | some doc =>
        cases hpdf : find_pdf_link doc with
        | none =>
          rw [runLoop_no_pdf _ _ _ _ _ _ _ _ hmem hf hpdf]
          rw [recordPaper_withFetch_eq]
          obtain ⟨ext, fext, wext, dext, h1, h2, h3, h4, h5, h6, h7, h8, h9, h10, h11⟩ :=
            ih ⟨st.papersInfo ++ [mkRecord doc paperDate rel], st.processed ++ [rel],
              st.count, st.fetches ++ [rel], st.writes, st.downloads⟩
          dsimp only at h1 h2 h3 h4 h5 h8 h10
          have hrelnot : rel ∉ ext.map fun r => r.link := by
            intro hrm
            exact h8 rel (h6.subset hrm) (by simp)
          refine ⟨mkRecord doc paperDate rel :: ext, rel :: fext, wext, dext, ?_, ?_, ?_,
            h4, h5, ?_, List.Sublist.cons₂ _ h7, ?_, ?_, ?_, ?_⟩
          · rw [h1]
            simp [mkRecord]
          · rw [h2]
            simp [mkRecord]
          · rw [h3]
            simp
          · show List.Sublist (rel :: ext.map fun r => r.link) (rel :: fext)
            exact List.Sublist.cons₂ _ h6
          · intro l hl
            rcases List.mem_cons.mp hl with hle | hle
            · rw [hle]
              exact hmem
            · intro hin
              exact h8 l hle (by simp [hin])
          · show ((rel :: ext.map fun r => r.link)).Nodup
            exact List.nodup_cons.mpr ⟨hrelnot, h9⟩
          · intro w hw
            rcases h10 w hw with ⟨pfx, tl, hext, hwv⟩
            refine ⟨mkRecord doc paperDate rel :: pfx, tl, by rw [hext]; simp, ?_⟩
            rw [hwv]
            simp
          · intro q hq
            have := h11 q hq
            simp only [List.map_cons]
            exact List.mem_cons_of_mem _ this
        | some url =>
          rw [runLoop_pdf _ _ _ _ _ _ _ _ _ hmem hf hpdf]
          rw [afterPdf_record_eq]
          by_cases hbr : cfg.testFlag ∧ 3 ≤ (⟨st.papersInfo ++ [mkRecord doc paperDate rel],
              st.processed ++ [rel], st.count + 1, st.fetches ++ [rel],
              st.writes ++ [st.papersInfo ++ [mkRecord doc paperDate rel]],
              st.downloads ++ (if cfg.downloadFlag && !pe (pdfFileName doc paperDate)
                then [(rel, url)] else [])⟩ : RunState).count
          · rw [if_pos hbr]
            refine ⟨[mkRecord doc paperDate rel], [rel],
              [st.papersInfo ++ [mkRecord doc paperDate rel]],
              (if cfg.downloadFlag && !pe (pdfFileName doc paperDate)
                then [(rel, url)] else []), by simp [mkRecord], by simp [mkRecord],
              by simp, by simp, by simp, ?_, ?_, ?_, by simp, ?_, ?_⟩
            · show List.Sublist [(mkRecord doc paperDate rel).link] [rel]
              simp [mkRecord]
            · exact List.Sublist.cons₂ _ (List.nil_sublist _)
            · intro l hl
              rcases List.mem_singleton.mp hl with hle
              rw [hle]
              exact hmem
            · intro w hw
              rcases List.mem_singleton.mp hw with hwe
              exact ⟨[mkRecord doc paperDate rel], [], by simp, by rw [hwe]⟩
            · intro q hq
              split at hq
              · rcases List.mem_singleton.mp hq with hqe
                rw [hqe]
                simp [mkRecord]
              · exact absurd hq (List.not_mem_nil q)
          · rw [if_neg hbr]
            obtain ⟨ext, fext, wext, dext, h1, h2, h3, h4, h5, h6, h7, h8, h9, h10, h11⟩ :=
              ih ⟨st.papersInfo ++ [mkRecord doc paperDate rel], st.processed ++ [rel],
                st.count + 1, st.fetches ++ [rel],
                st.writes ++ [st.papersInfo ++ [mkRecord doc paperDate rel]],
                st.downloads ++ (if cfg.downloadFlag && !pe (pdfFileName doc paperDate)
                  then [(rel, url)] else [])⟩
            dsimp only at h1 h2 h3 h4 h5 h8 h10
            have hrelnot : rel ∉ ext.map fun r => r.link := by
              intro hrm
              exact h8 rel (h6.subset hrm) (by simp)
            refine ⟨mkRecord doc paperDate rel :: ext, rel :: fext,
              (st.papersInfo ++ [mkRecord doc paperDate rel]) :: wext,
              (if cfg.downloadFlag && !pe (pdfFileName doc paperDate)
                then [(rel, url)] else []) ++ dext, ?_, ?_, ?_, ?_, ?_, ?_,
              List.Sublist.cons₂ _ h7, ?_, ?_, ?_, ?_⟩
            · rw [h1]
              simp [mkRecord]
            · rw [h2]
              simp [mkRecord]
            · rw [h3]
              simp
            · rw [h4]
              simp
            · rw [h5]
              simp
            · show List.Sublist (rel :: ext.map fun r => r.link) (rel :: fext)
              exact List.Sublist.cons₂ _ h6
            · intro l hl
              rcases List.mem_cons.mp hl with hle | hle
              · rw [hle]
                exact hmem
              · intro hin
                exact h8 l hle (by simp [hin])
            · show ((rel :: ext.map fun r => r.link)).Nodup
              exact List.nodup_cons.mpr ⟨hrelnot, h9⟩
            · intro w hw
              rcases List.mem_cons.mp hw with hwe | hwe
              · exact ⟨[mkRecord doc paperDate rel], ext, by simp, by rw [hwe]⟩
              · rcases h10 w hwe with ⟨pfx, tl, hext, hwv⟩
                refine ⟨mkRecord doc paperDate rel :: pfx, tl, by rw [hext]; simp, ?_⟩
                rw [hwv]
                simp
            · intro q hq
              rcases List.mem_append.mp hq with hqd | hqd
              · split at hqd
                · rcases List.mem_singleton.mp hqd with hqe
                  rw [hqe]
                  simp [mkRecord]
                · exact absurd hqd (List.not_mem_nil q)
              · have := h11 q hqd
                simp only [List.map_cons]
                exact List.mem_cons_of_mem _ this

/-- Distinctness of links is preserved by a run seeded from a store with
distinct links. -/
theorem runLoop_nodup_links (cfg : Config) (f : List Char → Option PaperDoc)
    (pe : List Char → Bool) (pairs : List (List Char × List Char)) (store : List Record)
    (hnodup : (store.map fun r => r.link).Nodup) :
    ((runLoop cfg f pe pairs (initState store)).papersInfo.map fun r => r.link).Nodup := by
  obtain ⟨ext, fext, wext, dext, h1, h2, h3, h4, h5, h6, h7, h8, h9, h10, h11⟩ :=
    runLoop_main cfg f pe pairs (initState store)
  have hip : (initState store).papersInfo = store := rfl
  have hipr : (initState store).processed = store.map (fun r => r.link) := rfl
  rw [hip] at h1
  rw [hipr] at h8
  rw [h1, List.map_append]
  refine List.nodup_append.mpr ⟨hnodup, h9, ?_⟩
  intro a ha hb
  exact h8 a (h6.subset hb) ha

/-! ## Claims about the run driver -/

/-- C2: from a store whose links are distinct, the loop skips stored links
entirely: the final collection still has pairwise distinct links, no stored
link is ever fetched again, the collection only grows by records with new
links, no download belongs to a stored link, and re-running on the resulting
store again yields pairwise distinct links (no duplicate rows). -/
theorem c2_resume_skip_dedup (cfg : Config) (f : List Char → Option PaperDoc)
    (pe : List Char → Bool) (pairs : List (List Char × List Char)) (store : List Record)
    (hnodup : (store.map fun r => r.link).Nodup) :
    ((runLoop cfg f pe pairs (initState store)).papersInfo.map fun r => r.link).Nodup ∧
    (∀ l ∈ (store.map fun r => r.link),
       l ∉ (runLoop cfg f pe pairs (initState store)).fetches) ∧
    (∃ ext, (runLoop cfg f pe pairs (initState store)).papersInfo = store ++ ext ∧
       ∀ r ∈ ext, r.link ∉ (store.map fun r2 => r2.link)) ∧
    (∀ p ∈ (runLoop cfg f pe pairs (initState store)).downloads,
       p.1 ∉ (store.map fun r => r.link)) ∧
    ((runLoop cfg f pe pairs
        (initState (runLoop cfg f pe pairs (initState store)).papersInfo)).papersInfo.map
          fun r => r.link).Nodup := by
  obtain ⟨ext, fext, wext, dext, h1, h2, h3, h4, h5, h6, h7, h8, h9, h10, h11⟩ :=
    runLoop_main cfg f pe pairs (initState store)
  have hip : (initState store).papersInfo = store := rfl
  have hipr : (initState store).processed = store.map (fun r => r.link) := rfl
  have hif : (initState store).fetches = [] := rfl
  have hid : (initState store).downloads = [] := rfl
  rw [hip] at h1
  rw [hipr] at h8
  rw [hif, List.nil_append] at h3
  rw [hid, List.nil_append] at h5
  refine ⟨runLoop_nodup_links cfg f pe pairs store hnodup, ?_, ?_, ?_,
    runLoop_nodup_links cfg f pe pairs _ (runLoop_nodup_links cfg f pe pairs store hnodup)⟩
  · intro l hl hin
    rw [h3] at hin
    exact h8 l hin hl
  · refine ⟨ext, h1, ?_⟩
    intro r hr
    exact h8 r.link (h6.subset (List.mem_map_of_mem _ hr))
  · intro p hp
    rw [h5] at hp
    exact fun hin => h8 p.1 (h6.subset (h11 p hp)) hin

/-- C6 counterexample: a paper whose page fetches but has no PDF link is not
skipped — its record still lands in the in-memory collection. -/
theorem c6_counterexample :
    find_pdf_link ⟨some "T: X".toList, none, none, []⟩ = none ∧
    mkRecord ⟨some "T: X".toList, none, none, []⟩ "20250804".toList
        "/smallsat/2025/all2025/7".toList ∈
      (runLoop ⟨false, false⟩
        (fun lk => if lk = fullLink "/smallsat/2025/all2025/7".toList
          then some ⟨some "T: X".toList, none, none, []⟩ else none)
        (fun _ => false)
        [("/smallsat/2025/all2025/7".toList, "20250804".toList)]
        (initState [])).papersInfo := by
  decide

/-- C6 (amended): a paper whose page fetch fails is skipped entirely and
removing it from the listing changes nothing else (so all other papers are
still processed and recorded); a fetched paper whose PDF link is missing is
still recorded in the collection — only its download and immediate write are
skipped. -/
theorem c6_amended (cfg : Config) (f : List Char → Option PaperDoc)
    (pe : List Char → Bool) :
    (∀ l d pre post st, f (fullLink l) = none →
      agreeExceptFetches (runLoop cfg f pe (pre ++ (l, d) :: post) st)
        (runLoop cfg f pe (pre ++ post) st)) ∧
    (∀ l d rest st doc, l ∉ st.processed → f (fullLink l) = some doc →
      find_pdf_link doc = none →
      mkRecord doc d l ∈ (runLoop cfg f pe ((l, d) :: rest) st).papersInfo) := by
  constructor
  · intro l d pre post st hf
    exact runLoop_drop_failed cfg f pe l d hf pre post st
  · intro l d rest st doc hmem hf hpdf
    rw [runLoop_no_pdf _ _ _ _ _ _ _ _ hmem hf hpdf, recordPaper_withFetch_eq]
    obtain ⟨ext, fext, wext, dext, h1, _⟩ :=
      runLoop_main cfg f pe rest ⟨st.papersInfo ++ [mkRecord doc d l],
        st.processed ++ [l], st.count, st.fetches ++ [l], st.writes, st.downloads⟩
    dsimp only at h1
    rw [h1]
    simp

/-- Witness for the amended C6: a one-paper listing whose fetch fails agrees
(fetch trace apart) with the empty listing; a one-paper listing whose page
has no PDF link still records the paper. -/
theorem c6_amended_witness :
    agreeExceptFetches
      (runLoop ⟨false, false⟩ (fun _ => none) (fun _ => false)
        [("/a".toList, "20250804".toList)] (initState []))
      (runLoop ⟨false, false⟩ (fun _ => none) (fun _ => false) [] (initState [])) ∧
    mkRecord ⟨some "T: X".toList, none, none, []⟩ "20250804".toList "/a".toList ∈
      (runLoop ⟨false, false⟩
        (fun lk => if lk = fullLink "/a".toList
          then some ⟨some "T: X".toList, none, none, []⟩ else none)
        (fun _ => false) [("/a".toList, "20250804".toList)] (initState [])).papersInfo :=
  ⟨(c6_amended ⟨false, false⟩ (fun _ => none) (fun _ => false)).1
      "/a".toList "20250804".toList [] [] (initState []) rfl,
   (c6_amended ⟨false, false⟩
      (fun lk => if lk = fullLink "/a".toList
        then some ⟨some "T: X".toList, none, none, []⟩ else none) (fun _ => false)).2
      "/a".toList "20250804".toList [] (initState [])
      ⟨some "T: X".toList, none, none, []⟩ (by decide) (by decide) (by decide)⟩

/-- C7 counterexample: a run that records one paper (fetched, no PDF link)
performs no write at all — the collection grew but was never serialized. -/
theorem c7_counterexample :
    (runLoop ⟨false, false⟩
        (fun lk => if lk = fullLink "/smallsat/2025/all2025/7".toList
          then some ⟨some "T: X".toList, none, none, []⟩ else none)
        (fun _ => false)
        [("/smallsat/2025/all2025/7".toList, "20250804".toList)]
        (initState [])).papersInfo
      = [mkRecord ⟨some "T: X".toList, none, none, []⟩ "20250804".toList
          "/smallsat/2025/all2025/7".toList] ∧
    (runLoop ⟨false, false⟩
        (fun lk => if lk = fullLink "/smallsat/2025/all2025/7".toList
          then some ⟨some "T: X".toList, none, none, []⟩ else none)
        (fun _ => false)
        [("/smallsat/2025/all2025/7".toList, "20250804".toList)]
        (initState [])).writes = [] := by
  decide

/-- C7 (amended): the full collection is re-serialized immediately after
every paper whose PDF link is found; a paper recorded without a PDF link
triggers no immediate write (it is only persisted with the next write); and
every write serializes the entire collection as of its moment (stored rows
plus the new records so far). -/
theorem c7_amended (cfg : Config) (f : List Char → Option PaperDoc)
    (pe : List Char → Bool) :
    (∀ l d rest st doc url, l ∉ st.processed → f (fullLink l) = some doc →
      find_pdf_link doc = some url →
      ∃ later, (runLoop cfg f pe ((l, d) :: rest) st).writes
        = st.writes ++ (st.papersInfo ++ [mkRecord doc d l]) :: later) ∧
    (∀ l d rest st doc, l ∉ st.processed → f (fullLink l) = some doc →
      find_pdf_link doc = none →
      (runLoop cfg f pe ((l, d) :: rest) st)
        = runLoop cfg f pe rest (recordPaper (withFetch st l) doc d l) ∧
      (recordPaper (withFetch st l) doc d l).writes = st.writes ∧
      (recordPaper (withFetch st l) doc d l).papersInfo
        = st.papersInfo ++ [mkRecord doc d l]) ∧
    (∀ pairs st, ∃ ext,
      (runLoop cfg f pe pairs st).papersInfo = st.papersInfo ++ ext ∧
      ∀ w ∈ (runLoop cfg f pe pairs st).writes, w ∈ st.writes ∨
        ∃ pfx tl, ext = pfx ++ tl ∧ w = st.papersInfo ++ pfx) := by
  refine ⟨?_, ?_, ?_⟩
  · intro l d rest st doc url hmem hf hpdf
    rw [runLoop_pdf _ _ _ _ _ _ _ _ _ hmem hf hpdf, afterPdf_record_eq]
    by_cases hbr : cfg.testFlag ∧ 3 ≤ (⟨st.papersInfo ++ [mkRecord doc d l],
        st.processed ++ [l], st.count + 1, st.fetches ++ [l],
        st.writes ++ [st.papersInfo ++ [mkRecord doc d l]],
        st.downloads ++ (if cfg.downloadFlag && !pe (pdfFileName doc d)
          then [(l, url)] else [])⟩ : RunState).count
    · rw [if_pos hbr]
      exact ⟨[], rfl⟩
    · rw [if_neg hbr]
      obtain ⟨ext, fext, wext, dext, h1, h2, h3, h4, h5, _⟩ :=
        runLoop_main cfg f pe rest ⟨st.papersInfo ++ [mkRecord doc d l],
          st.processed ++ [l], st.count + 1, st.fetches ++ [l],
          st.writes ++ [st.papersInfo ++ [mkRecord doc d l]],
          st.downloads ++ (if cfg.downloadFlag && !pe (pdfFileName doc d)
            then [(l, url)] else [])⟩
      dsimp only at h4
      refine ⟨wext, ?_⟩
      rw [h4]
      simp
  · intro l d rest st doc hmem hf hpdf
    exact ⟨runLoop_no_pdf _ _ _ _ _ _ _ _ hmem hf hpdf, rfl, rfl⟩
  · intro pairs st
    obtain ⟨ext, fext, wext, dext, h1, h2, h3, h4, h5, h6, h7, h8, h9, h10, h11⟩ :=
      runLoop_main cfg f pe pairs st
    refine ⟨ext, h1, ?_⟩
    intro w hw
    rw [h4] at hw
    rcases List.mem_append.mp hw with h | h
    · exact Or.inl h
    · exact Or.inr (h10 w h)

/-- Witness for the amended C7: a one-paper listing with a PDF link writes
the full one-record collection immediately. -/
theorem c7_amended_witness :
    ∃ later,
      (runLoop ⟨false, false⟩
        (fun lk => if lk = fullLink "/a".toList
          then some ⟨some "T".toList, none, none,
            ["https://digitalcommons.usu.edu/cgi/viewcontent.cgi?article=1&context=smallsat".toList]⟩
          else none)
        (fun _ => false) [("/a".toList, "20250804".toList)] (initState [])).writes
      = (initState []).writes ++ ((initState []).papersInfo ++
          [mkRecord ⟨some "T".toList, none, none,
            ["https://digitalcommons.usu.edu/cgi/viewcontent.cgi?article=1&context=smallsat".toList]⟩
            "20250804".toList "/a".toList]) :: later :=
  (c7_amended ⟨false, false⟩
    (fun lk => if lk = fullLink "/a".toList
      then some ⟨some "T".toList, none, none,
        ["https://digitalcommons.usu.edu/cgi/viewcontent.cgi?article=1&context=smallsat".toList]⟩
      else none)
    (fun _ => false)).1 "/a".toList "20250804".toList [] (initState [])
    ⟨some "T".toList, none, none,
      ["https://digitalcommons.usu.edu/cgi/viewcontent.cgi?article=1&context=smallsat".toList]⟩
    "https://digitalcommons.usu.edu/cgi/viewcontent.cgi?article=1&context=smallsat".toList
    (by decide) (by decide) (by decide)

/-- Witness for C2 at a one-row store and a listing repeating the stored
link: nothing is fetched and nothing changes. -/
theorem c2_resume_skip_dedup_witness :
    (([⟨"T0".toList, "20250101".toList, "A0".toList, "/a".toList⟩] : List Record).map
        fun r => r.link).Nodup ∧
    (((runLoop ⟨false, false⟩ (fun _ => none) (fun _ => false)
        [("/a".toList, "20250804".toList)]
        (initState [⟨"T0".toList, "20250101".toList, "A0".toList,
          "/a".toList⟩])).papersInfo.map fun r => r.link).Nodup ∧
    (∀ l ∈ (([⟨"T0".toList, "20250101".toList, "A0".toList, "/a".toList⟩] :
          List Record).map fun r => r.link),
       l ∉ (runLoop ⟨false, false⟩ (fun _ => none) (fun _ => false)
        [("/a".toList, "20250804".toList)]
        (initState [⟨"T0".toList, "20250101".toList, "A0".toList,
          "/a".toList⟩])).fetches) ∧
    (∃ ext, (runLoop ⟨false, false⟩ (fun _ => none) (fun _ => false)
        [("/a".toList, "20250804".toList)]
        (initState [⟨"T0".toList, "20250101".toList, "A0".toList,
          "/a".toList⟩])).papersInfo
        = [⟨"T0".toList, "20250101".toList, "A0".toList, "/a".toList⟩] ++ ext ∧
       ∀ r ∈ ext, r.link ∉ (([⟨"T0".toList, "20250101".toList, "A0".toList,
          "/a".toList⟩] : List Record).map fun r2 => r2.link)) ∧
    (∀ p ∈ (runLoop ⟨false, false⟩ (fun _ => none) (fun _ => false)
        [("/a".toList, "20250804".toList)]
        (initState [⟨"T0".toList, "20250101".toList, "A0".toList,
          "/a".toList⟩])).downloads,
       p.1 ∉ (([⟨"T0".toList, "20250101".toList, "A0".toList, "/a".toList⟩] :
          List Record).map fun r => r.link)) ∧
    ((runLoop ⟨false, false⟩ (fun _ => none) (fun _ => false)
        [("/a".toList, "20250804".toList)]
        (initState (runLoop ⟨false, false⟩ (fun _ => none) (fun _ => false)
          [("/a".toList, "20250804".toList)]
          (initState [⟨"T0".toList, "20250101".toList, "A0".toList,
            "/a".toList⟩])).papersInfo)).papersInfo.map fun r => r.link).Nodup) :=
  ⟨by decide,
   c2_resume_skip_dedup ⟨false, false⟩ (fun _ => none) (fun _ => false)
    [("/a".toList, "20250804".toList)]
    [⟨"T0".toList, "20250101".toList, "A0".toList, "/a".toList⟩] (by decide)⟩

/-- With the smoke-test cap off and pairwise-distinct listing links, the loop
fetches exactly the listing links that are not already processed, in listing
order. -/
theorem runLoop_fetches_filter (cfg : Config) (f : List Char → Option PaperDoc)
    (pe : List Char → Bool) (htf : cfg.testFlag = false) :
    ∀ (pairs : List (List Char × List Char)) (st : RunState) (P : List (List Char)),
      (pairs.map Prod.fst).Nodup →
      (∀ l ∈ pairs.map Prod.fst, (l ∈ st.processed ↔ l ∈ P)) →
      (runLoop cfg f pe pairs st).fetches
        = st.fetches ++ (pairs.map Prod.fst).filter (fun l => decide (l ∉ P)) := by
  intro pairs
  induction pairs with
  | nil =>
    intro st P _ _
    simp [runLoop_nil]
  | cons p rest ih =>
    rcases p with ⟨rel, d⟩
    intro st P hnd hag
    have hndr : (rest.map Prod.fst).Nodup := by
      simp only [List.map_cons, List.nodup_cons] at hnd
      exact hnd.2
    have hrelnotin : rel ∉ rest.map Prod.fst := by
      simp only [List.map_cons, List.nodup_cons] at hnd
      exact hnd.1
    have hagrel := hag rel (by simp)
    by_cases hmem : rel ∈ st.processed
    · have hrelP : rel ∈ P := hagrel.mp hmem
      rw [runLoop_skip _ _ _ _ _ _ _ hmem]
      rw [ih st P hndr (fun l hl => hag l (by simp [hl]))]
      congr 1
      simp [List.filter_cons, hrelP]
    · have hrelP : rel ∉ P := fun hx => hmem (hagrel.mpr hx)
      have hfiltercons : (List.map Prod.fst ((rel, d) :: rest)).filter
            (fun l => decide (l ∉ P))
          = rel :: (rest.map Prod.fst).filter (fun l => decide (l ∉ P)) := by
        simp [List.filter_cons, hrelP]
      cases hf : f (fullLink rel) with
      | none =>
        rw [runLoop_fetch_fail _ _ _ _ _ _ _ hmem hf]
        rw [ih (withFetch st rel) P hndr (fun l hl => hag l (by simp [hl]))]
        rw [hfiltercons]
        show st.fetches ++ [rel] ++ _ = _
        simp
      | some doc =>
        have hagr : ∀ l ∈ rest.map Prod.fst, (l ∈ st.processed ++ [rel] ↔ l ∈ P) := by
          intro l hl
          rw [List.mem_append]
          constructor
          · rintro (h | h)
            · exact (hag l (by simp [hl])).mp h
            · exfalso
              have hle : l = rel := by simpa using h
              exact hrelnotin (hle ▸ hl)
          · intro h
            exact Or.inl ((hag l (by simp [hl])).mpr h)
        cases hpdf : find_pdf_link doc with
        | none =>
          rw [runLoop_no_pdf _ _ _ _ _ _ _ _ hmem hf hpdf, recordPaper_withFetch_eq]
          rw [ih _ P hndr hagr]
          rw [hfiltercons]
          show st.fetches ++ [rel] ++ _ = _
          simp
        | some url =>
          rw [runLoop_pdf _ _ _ _ _ _ _ _ _ hmem hf hpdf]
          rw [if_neg (by simp [htf])]
          rw [afterPdf_record_eq]
          rw [ih _ P hndr hagr]
          rw [hfiltercons]
          show st.fetches ++ [rel] ++ _ = _
          simp

/-- C9: with the listing parser's mapping driving the loop (smoke-test cap
off), the output collection is the stored rows followed by the new records;
the new records' links appear in fetch order, which is a subsequence of the
listing-walk order; and the fetch order is exactly the listing-walk order
with the already-stored links skipped. -/
theorem c9_processing_order (cfg : Config) (f : List Char → Option PaperDoc)
    (pe : List Char → Bool) (soup : ListingDoc) (year : Nat) (store : List Record)
    (htf : cfg.testFlag = false) :
    ∃ ext,
      (runLoop cfg f pe (extract_paper_links_with_dates soup year)
        (initState store)).papersInfo = store ++ ext ∧
      List.Sublist (ext.map fun r => r.link)
        (runLoop cfg f pe (extract_paper_links_with_dates soup year)
          (initState store)).fetches ∧
      List.Sublist
        (runLoop cfg f pe (extract_paper_links_with_dates soup year)
          (initState store)).fetches
        ((extract_paper_links_with_dates soup year).map Prod.fst) ∧
      (runLoop cfg f pe (extract_paper_links_with_dates soup year)
          (initState store)).fetches
        = ((extract_paper_links_with_dates soup year).map Prod.fst).filter
            (fun l => decide (l ∉ (store.map fun r => r.link))) := by
  obtain ⟨ext, fext, wext, dext, h1, h2, h3, h4, h5, h6, h7, h8, h9, h10, h11⟩ :=
    runLoop_main cfg f pe (extract_paper_links_with_dates soup year) (initState store)
  have hip : (initState store).papersInfo = store := rfl
  have hif : (initState store).fetches = [] := rfl
  rw [hip] at h1
  rw [hif, List.nil_append] at h3
  refine ⟨ext, h1, ?_, ?_, ?_⟩
  · rw [h3]
    exact h6
  · rw [h3]
    exact h7
  · have hkeys : ((extract_paper_links_with_dates soup year).map Prod.fst).Nodup := by
      cases hvc : soup.vcalendar with
      | none =>
        unfold extract_paper_links_with_dates extractFull
        rw [hvc]
        exact List.nodup_nil
      | some rows =>
        unfold extract_paper_links_with_dates extractFull
        rw [hvc]
        exact foldl_keys_nodup year rows ⟨[], none, []⟩ (by simp)
    have hagree : ∀ l ∈ (extract_paper_links_with_dates soup year).map Prod.fst,
        (l ∈ (initState store).processed ↔ l ∈ (store.map fun r => r.link)) := by
      intro l _
      exact Iff.rfl
    have := runLoop_fetches_filter cfg f pe htf
      (extract_paper_links_with_dates soup year) (initState store)
      (store.map fun r => r.link) hkeys hagree
    rw [hif, List.nil_append] at this
    exact this

/-- Witness for C9 at a two-row listing and an empty store: the single paper
link is fetched in listing order. -/
theorem c9_processing_order_witness :
    ∃ ext,
      (runLoop ⟨false, false⟩ (fun _ => none) (fun _ => false)
        (extract_paper_links_with_dates
          ⟨some [⟨["day"], "Monday, August 4".toList, []⟩,
                 ⟨["vevent"], [], ["/smallsat/2025/all2025/7".toList]⟩]⟩ 2025)
        (initState [])).papersInfo = [] ++ ext ∧
      List.Sublist (ext.map fun r => r.link)
        (runLoop ⟨false, false⟩ (fun _ => none) (fun _ => false)
          (extract_paper_links_with_dates
            ⟨some [⟨["day"], "Monday, August 4".toList, []⟩,
                   ⟨["vevent"], [], ["/smallsat/2025/all2025/7".toList]⟩]⟩ 2025)
          (initState [])).fetches ∧
      List.Sublist
        (runLoop ⟨false, false⟩ (fun _ => none) (fun _ => false)
          (extract_paper_links_with_dates
            ⟨some [⟨["day"], "Monday, August 4".toList, []⟩,
                   ⟨["vevent"], [], ["/smallsat/2025/all2025/7".toList]⟩]⟩ 2025)
          (initState [])).fetches
        ((extract_paper_links_with_dates
            ⟨some [⟨["day"], "Monday, August 4".toList, []⟩,
                   ⟨["vevent"], [], ["/smallsat/2025/all2025/7".toList]⟩]⟩ 2025).map
          Prod.fst) ∧
      (runLoop ⟨false, false⟩ (fun _ => none) (fun _ => false)
          (extract_paper_links_with_dates
            ⟨some [⟨["day"], "Monday, August 4".toList, []⟩,
                   ⟨["vevent"], [], ["/smallsat/2025/all2025/7".toList]⟩]⟩ 2025)
          (initState [])).fetches
        = ((extract_paper_links_with_dates
            ⟨some [⟨["day"], "Monday, August 4".toList, []⟩,
                   ⟨["vevent"], [], ["/smallsat/2025/all2025/7".toList]⟩]⟩ 2025).map
            Prod.fst).filter
            (fun l => decide (l ∉ (([] : List Record).map fun r => r.link))) :=
  c9_processing_order ⟨false, false⟩ (fun _ => none) (fun _ => false)
    ⟨some [⟨["day"], "Monday, August 4".toList, []⟩,
           ⟨["vevent"], [], ["/smallsat/2025/all2025/7".toList]⟩]⟩ 2025 [] rfl
